import Mathlib

/-!
Verification development for the LuminS local file-synchronization engine.

The orchestration layer (`src/lumins/core.rs`: `synchronize`, `copy`) and the
flag decoding (`src/lumins/parse.rs`: `Flag`, `contains_flag`) are embedded
directly from the Rust source.  The file-operation primitives they call
(`file_ops::get_all_files`, `delete_files`, `copy_files`,
`compare_and_copy_files`, `sort_files`, `delete_files_sequential`) are not part
of the available source tree; they are modelled from the specification's
component contracts (spec sections 4.1 to 4.5), as noted on each definition.

Filesystem trees are modelled root-relatively: a path is its list of segments,
a tree is the triple of typed entry sets produced by one scan (`FileSets`),
with file byte contents and symlink target strings attached so that copy and
compare semantics are expressible.  Per-entry I/O failures (spec section 7,
"per-entry / recoverable") are modelled by an oracle `ok : RelPath → Bool`
saying whether the single-entry operation on a given path succeeds; the ideal
run uses the everywhere-true oracle `allOk`.
-/

namespace Lumins

/-- A filesystem path relative to a synchronization root, as its segment list
(spec section 3, `RelPath`). -/
abbrev RelPath := List String

/-- The keys (paths) of an association list of entries. -/
def keysOf {α : Type} (l : List (RelPath × α)) : List RelPath :=
  l.map Prod.fst

/-- Lookup of the first entry with the given path. -/
def lookupF {α : Type} (l : List (RelPath × α)) (p : RelPath) : Option α :=
  (l.find? (fun e => e.1 == p)).map Prod.snd

/-- Overwrite-or-insert for an association list: every entry at path `p` is
replaced by value `c`; if no entry at `p` exists one is appended. -/
def setKey {α : Type} : List (RelPath × α) → RelPath → α → List (RelPath × α)
  | [], p, c => [(p, c)]
  | e :: rest, p, c =>
      if e.1 = p then (p, c) :: setKey rest p c else e :: setKey rest p c

/-- The four independent option bits of `parse.rs` (`#[repr(u32)] pub enum
Flag`): `Copy = 1 << 0`, `NoDelete = 1 << 1`, `Secure = 1 << 2`,
`Verbose = 1 << 3`. -/
inductive Flag where
  | Copy : Flag
  | NoDelete : Flag
  | Secure : Flag
  | Verbose : Flag
deriving DecidableEq

/-- The `u32` discriminant of a flag (`flag as u32` in `parse.rs`). -/
def Flag.toU32 : Flag → Nat
  | .Copy => 1
  | .NoDelete => 2
  | .Secure => 4
  | .Verbose => 8

/-- Embedding of `parse.rs::contains_flag`:
`(bitfield >> (((flag as u32) as f32).log2() as u32) & 1) == 1`.
The pipeline `((flag as u32) as f32).log2() as u32` is modelled as
`Nat.log2`: the four discriminants 1, 2, 4, 8 are exactly representable in
`f32` and their base-2 logarithms 0, 1, 2, 3 are computed exactly, so the
truncating cast returns exactly the exponent. -/
def contains_flag (bitfield : Nat) (flag : Flag) : Bool :=
  ((bitfield >>> Nat.log2 flag.toU32) &&& 1) == 1

/-- One scanned root (spec section 3, `FileSets`): the set of regular files
with their byte contents, the set of directories, and the set of symlinks with
their target strings, all keyed by root-relative path.  In `file_ops` the
scanned sets store paths (and symlink targets); file contents live on disk and
are read at copy/compare time — here they are attached to the file entries so
that those reads are expressible. -/
structure FileSets where
  files : List (RelPath × List Nat)
  dirs : List RelPath
  symlinks : List (RelPath × String)
deriving DecidableEq

/-- The scan invariant (spec section 3): within one tree a path occurs at most
once per kind-set. -/
def FileSets.Wf (fs : FileSets) : Prop :=
  (keysOf fs.files).Nodup ∧ fs.dirs.Nodup ∧ (keysOf fs.symlinks).Nodup

instance (fs : FileSets) : Decidable fs.Wf := by
  unfold FileSets.Wf; infer_instance

/-- Scan errors (spec section 4.1): root missing, not a directory, or
unreadable; carried opaquely as a message. -/
abbrev IOError := String

/-- The per-entry failure oracle of the ideal run: every single-entry
operation succeeds. -/
def allOk : RelPath → Bool := fun _ => true

/-- Modelled from the spec: `file_ops::delete_files` applied to a set of plain
files (spec section 4.5) — each listed path is unlinked independently; a
per-entry failure (`ok p = false`) leaves that entry in place and the run
continues. -/
def deleteFilesOp (ok : RelPath → Bool) (del : List RelPath) (d : FileSets) :
    FileSets :=
  { d with files := d.files.filter (fun e => !(del.contains e.1 && ok e.1)) }

/-- Modelled from the spec: `file_ops::delete_files` applied to symlinks
(spec section 4.5).  A scanned symlink is identified by its path and target
string together (matching the `change_symlink` test of `core.rs`, which
requires a symlink whose target changed to be deleted and recreated). -/
def deleteSymlinksOp (ok : RelPath → Bool) (del : List (RelPath × String))
    (d : FileSets) : FileSets :=
  { d with symlinks := d.symlinks.filter (fun e => !(del.contains e && ok e.1)) }

/-- Modelled from the spec: `file_ops::delete_files_sequential` on directories
(spec section 4.5) — the listed directories are removed one at a time in list
order; a per-entry failure leaves that directory in place. -/
def deleteDirsOp (ok : RelPath → Bool) (del : List RelPath) (d : FileSets) :
    FileSets :=
  { d with dirs := d.dirs.filter (fun p => !(del.contains p && ok p)) }

/-- Modelled from the spec: `file_ops::copy_files` on directories (spec
section 4.3) — create the destination directory if absent; idempotent. -/
def copyDirsOp (ok : RelPath → Bool) (toCopy : List RelPath) (d : FileSets) :
    FileSets :=
  toCopy.foldl
    (fun acc p =>
      if ok p && !(acc.dirs.contains p) then { acc with dirs := acc.dirs ++ [p] }
      else acc)
    d

/-- Modelled from the spec: `file_ops::copy_files` on regular files (spec
section 4.3) — copy the byte content from the source tree, overwriting any
destination file already at that path. -/
def copyFilesOp (ok : RelPath → Bool) (toCopy : List RelPath) (s d : FileSets) :
    FileSets :=
  toCopy.foldl
    (fun acc p =>
      if ok p then { acc with files := setKey acc.files p ((lookupF s.files p).getD []) }
      else acc)
    d

/-- Modelled from the spec: `file_ops::copy_files` on symlinks (spec section
4.3) — recreate the symlink at the destination with the same target string,
without dereferencing. -/
def copySymlinksOp (ok : RelPath → Bool) (toCopy : List (RelPath × String))
    (d : FileSets) : FileSets :=
  toCopy.foldl
    (fun acc e =>
      if ok e.1 then { acc with symlinks := setKey acc.symlinks e.1 e.2 }
      else acc)
    d

/-- Modelled from the spec: `file_ops::compare_and_copy_files` (spec section
4.4) — for each path present in both trees, decide whether the destination
content differs from the source content, and copy (overwrite) exactly when it
does.  Returns the updated tree together with the list of paths that were
actually copied. -/
def compareAndCopyOp (ok : RelPath → Bool) (toCompare : List RelPath)
    (s d : FileSets) : FileSets × List RelPath :=
  match toCompare with
  | [] => (d, [])
  | p :: rest =>
      if ok p && (lookupF d.files p != lookupF s.files p) then
        let d1 : FileSets :=
          { d with files := setKey d.files p ((lookupF s.files p).getD []) }
        let r := compareAndCopyOp ok rest s d1
        (r.1, p :: r.2)
      else compareAndCopyOp ok rest s d

/-- Path depth used by the directory-deletion order: the number of path
segments (spec section 9: "sorting the candidate directory paths by depth
(segment count)"). -/
def pathDepth (p : RelPath) : Nat := p.length

/-- The directory-deletion order (spec section 4.5): descending path depth
(deepest first), ties broken by reverse lexicographic order of the path. -/
def dirLe (a b : RelPath) : Prop :=
  pathDepth b < pathDepth a ∨ (pathDepth a = pathDepth b ∧ b ≤ a)

instance : DecidableRel dirLe := fun a b => by
  unfold dirLe; infer_instance

instance : IsTotal RelPath dirLe where
  total a b := by
    unfold dirLe pathDepth
    rcases Nat.lt_trichotomy a.length b.length with h | h | h
    · exact Or.inr (Or.inl h)
    · rcases le_total a b with hle | hle
      · exact Or.inr (Or.inr ⟨h.symm, hle⟩)
      · exact Or.inl (Or.inr ⟨h, hle⟩)
    · exact Or.inl (Or.inl h)

instance : IsTrans RelPath dirLe where
  trans a b c hab hbc := by
    unfold dirLe pathDepth at *
    rcases hab with h1 | ⟨h1, h1'⟩ <;> rcases hbc with h2 | ⟨h2, h2'⟩
    · exact Or.inl (h2.trans h1)
    · exact Or.inl (h2 ▸ h1)
    · exact Or.inl (h1 ▸ h2)
    · exact Or.inr ⟨h1.trans h2, h2'.trans h1'⟩

/-- Modelled from the spec: `file_ops::sort_files` (spec section 4.5) — sort
the directories scheduled for deletion deepest first, ties broken by reverse
lexicographic order, so that every directory precedes its ancestors. -/
def sortFiles (l : List RelPath) : List RelPath :=
  List.insertionSort dirLe l

/-- One observable step of an orchestrator run, in execution order.  Scans are
reads; every other action mutates the destination tree.  Each mutating action
carries the path set handed to the corresponding `file_ops` call, and
`compareFiles` additionally carries the paths whose content comparison failed
and were therefore overwritten. -/
inductive Action where
  | scanSrc : Action
  | scanDest : Action
  | deleteSymlinks (entries : List (RelPath × String)) : Action
  | deleteFiles (entries : List RelPath) : Action
  | copyDirs (entries : List RelPath) : Action
  | copySymlinks (entries : List (RelPath × String)) : Action
  | copyFiles (entries : List RelPath) : Action
  | compareFiles (entries : List RelPath) (copied : List RelPath) : Action
  | deleteDirs (entries : List RelPath) : Action
deriving DecidableEq

/-- Whether an action mutates the destination tree (anything but a scan). -/
def Action.isMutating : Action → Bool
  | .scanSrc => false
  | .scanDest => false
  | _ => true

/-- Whether an action is a deletion of any kind. -/
def Action.isDeletion : Action → Bool
  | .deleteSymlinks _ => true
  | .deleteFiles _ => true
  | .deleteDirs _ => true
  | _ => false

/-- Whether an action deletes files or symlinks (the phase-2 deletions). -/
def Action.isEntryDeletion : Action → Bool
  | .deleteSymlinks _ => true
  | .deleteFiles _ => true
  | _ => false

/-- Whether an action deletes directories (the final phase). -/
def Action.isDirDeletion : Action → Bool
  | .deleteDirs _ => true
  | _ => false

/-- Whether an action creates directories. -/
def Action.isDirCreation : Action → Bool
  | .copyDirs _ => true
  | _ => false

/-- Whether an action copies regular-file contents (unconditionally or via
comparison). -/
def Action.isFileCopy : Action → Bool
  | .copyFiles _ => true
  | .compareFiles _ _ => true
  | _ => false

/-- Whether an action is a content comparison. -/
def Action.isCompare : Action → Bool
  | .compareFiles _ _ => true
  | _ => false

/-- The number of regular-file copies an action performs (ideal run):
`copyFiles` copies each listed path, `compareFiles` copies each path whose
comparison found a difference. -/
def Action.fileCopyCount : Action → Nat
  | .copyFiles ps => ps.length
  | .compareFiles _ copied => copied.length
  | _ => 0

/-- Total number of regular-file copies performed along a trace. -/
def traceFileCopies (tr : List Action) : Nat :=
  (tr.map Action.fileCopyCount).sum

/-- `core.rs` line 32: `let delete = !parse::contains_flag(flags, parse::Flag::NoDelete);`. -/
def deleteOn (flags : Nat) : Bool := !(contains_flag flags Flag.NoDelete)

/-- `core.rs` line 36: `dest_symlinks.par_difference(&src_symlinks)` —
symlinks present in dest but absent from src (identity: path and target). -/
def symlinksToDelete (s d : FileSets) : List (RelPath × String) :=
  d.symlinks.filter (fun e => !(s.symlinks.contains e))

/-- `core.rs` line 37: `dest_files.par_difference(&src_files)` — file paths
present in dest but absent from src. -/
def filesToDelete (s d : FileSets) : List RelPath :=
  (keysOf d.files).filter (fun p => !((keysOf s.files).contains p))

/-- `core.rs` line 43: `src_dirs.par_difference(&dest_dirs)`. -/
def dirsToCopy (s d : FileSets) : List RelPath :=
  s.dirs.filter (fun p => !(d.dirs.contains p))

/-- `core.rs` line 46: `src_symlinks.par_difference(&dest_symlinks)`. -/
def symlinksToCopy (s d : FileSets) : List (RelPath × String) :=
  s.symlinks.filter (fun e => !(d.symlinks.contains e))

/-- `core.rs` line 49: `src_files.par_difference(&dest_files)`. -/
def filesToCopy (s d : FileSets) : List RelPath :=
  (keysOf s.files).filter (fun p => !((keysOf d.files).contains p))

/-- `core.rs` line 50: `src_files.par_intersection(&dest_files)`. -/
def filesToCompare (s d : FileSets) : List RelPath :=
  (keysOf s.files).filter (fun p => (keysOf d.files).contains p)

/-- `core.rs` line 57: `dest_dirs.par_difference(&src_dirs)`. -/
def dirsToDelete (s d : FileSets) : List RelPath :=
  d.dirs.filter (fun p => !(s.dirs.contains p))

/-- Destination tree after `core.rs` line 39 (symlink deletion phase). -/
def stageDelSym (ok : RelPath → Bool) (s d : FileSets) (flags : Nat) : FileSets :=
  if deleteOn flags then deleteSymlinksOp ok (symlinksToDelete s d) d else d

/-- Destination tree after `core.rs` line 40 (file deletion phase). -/
def stageDelFiles (ok : RelPath → Bool) (s d : FileSets) (flags : Nat) : FileSets :=
  if deleteOn flags then
    deleteFilesOp ok (filesToDelete s d) (stageDelSym ok s d flags)
  else stageDelSym ok s d flags

/-- Destination tree after `core.rs` line 44 (directory copy phase). -/
def stageCopyDirs (ok : RelPath → Bool) (s d : FileSets) (flags : Nat) : FileSets :=
  copyDirsOp ok (dirsToCopy s d) (stageDelFiles ok s d flags)

/-- Destination tree after `core.rs` line 47 (symlink copy phase). -/
def stageCopySym (ok : RelPath → Bool) (s d : FileSets) (flags : Nat) : FileSets :=
  copySymlinksOp ok (symlinksToCopy s d) (stageCopyDirs ok s d flags)

/-- Destination tree after `core.rs` line 52 (file copy phase). -/
def stageCopyFiles (ok : RelPath → Bool) (s d : FileSets) (flags : Nat) : FileSets :=
  copyFilesOp ok (filesToCopy s d) s (stageCopySym ok s d flags)

/-- Destination tree and copied-path list after `core.rs` line 53
(compare-and-copy phase). -/
def stageCompare (ok : RelPath → Bool) (s d : FileSets) (flags : Nat) :
    FileSets × List RelPath :=
  compareAndCopyOp ok (filesToCompare s d) s (stageCopyFiles ok s d flags)

/-- Final destination tree of `core.rs::synchronize` after the sequential,
sorted directory-deletion phase of lines 56-60. -/
def syncTree (ok : RelPath → Bool) (s d : FileSets) (flags : Nat) : FileSets :=
  if deleteOn flags then
    deleteDirsOp ok (sortFiles (dirsToDelete s d)) (stageCompare ok s d flags).1
  else (stageCompare ok s d flags).1

/-- The mutation trace of a `synchronize` run whose two scans succeeded, in
the execution order of `core.rs` lines 35-60. -/
def syncTrace (ok : RelPath → Bool) (s d : FileSets) (flags : Nat) : List Action :=
  (if deleteOn flags then
    [Action.deleteSymlinks (symlinksToDelete s d), Action.deleteFiles (filesToDelete s d)]
   else [])
  ++ [Action.copyDirs (dirsToCopy s d), Action.copySymlinks (symlinksToCopy s d),
      Action.copyFiles (filesToCopy s d),
      Action.compareFiles (filesToCompare s d) (stageCompare ok s d flags).2]
  ++ (if deleteOn flags then [Action.deleteDirs (sortFiles (dirsToDelete s d))] else [])

/-- Embedding of `core.rs::synchronize`.  The two `file_ops::get_all_files`
scans (lines 20 and 26) are modelled by their outcomes `srcScan` and
`destScan`; each `?` propagates a scan error immediately, so a failed source
scan happens before the destination is even scanned.  On success the function
runs the mutation phases and returns `Ok(())`; the returned tree is the
resulting destination state.  The second component is the list of performed
actions in order. -/
def synchronize (ok : RelPath → Bool) (srcScan destScan : Except IOError FileSets)
    (flags : Nat) : Except IOError FileSets × List Action :=
  match srcScan with
  | .error e => (.error e, [Action.scanSrc])
  | .ok s =>
      match destScan with
      | .error e => (.error e, [Action.scanSrc, Action.scanDest])
      | .ok d =>
          (.ok (syncTree ok s d flags),
           Action.scanSrc :: Action.scanDest :: syncTrace ok s d flags)

/-- The destination tree `core.rs::copy` mutates: `copy` never scans or
validates its destination, so the tree is whatever the destination currently
holds; a destination that is missing or unreadable contributes no entries. -/
def destTreeOf (destScan : Except IOError FileSets) : FileSets :=
  match destScan with
  | .ok d => d
  | .error _ => ⟨[], [], []⟩

/-- Final destination tree of `core.rs::copy` (lines 84-86): copy all src
directories, then all src files, then all src symlinks, unconditionally. -/
def copyTree (ok : RelPath → Bool) (s d : FileSets) : FileSets :=
  copySymlinksOp ok s.symlinks
    (copyFilesOp ok (keysOf s.files) s (copyDirsOp ok s.dirs d))

/-- Embedding of `core.rs::copy`: scan src only (line 78, with `?`); the
`destScan` argument witnesses what scanning the destination would have
returned, and is never inspected for the result.  No comparison and no
deletion occur. -/
def copyRun (ok : RelPath → Bool) (srcScan destScan : Except IOError FileSets) :
    Except IOError FileSets × List Action :=
  match srcScan with
  | .error e => (.error e, [Action.scanSrc])
  | .ok s =>
      (.ok (copyTree ok s (destTreeOf destScan)),
       [Action.scanSrc, Action.copyDirs s.dirs, Action.copyFiles (keysOf s.files),
        Action.copySymlinks s.symlinks])

/-- Bridge between the executable `List.contains` used in the definitions and
propositional membership. -/
theorem contains_iff {α : Type} [BEq α] [LawfulBEq α] {l : List α} {a : α} :
    l.contains a = true ↔ a ∈ l :=
  List.elem_iff

theorem keysOf_nil {α : Type} : keysOf ([] : List (RelPath × α)) = [] := rfl

theorem keysOf_cons {α : Type} (e : RelPath × α) (l : List (RelPath × α)) :
    keysOf (e :: l) = e.1 :: keysOf l := rfl

theorem mem_keysOf {α : Type} {l : List (RelPath × α)} {p : RelPath} :
    p ∈ keysOf l ↔ ∃ c, (p, c) ∈ l := by
  unfold keysOf
  constructor
  · intro h
    rcases List.mem_map.mp h with ⟨e, he, hp⟩
    exact ⟨e.2, by simpa [← hp] using he⟩
  · rintro ⟨c, hc⟩
    exact List.mem_map.mpr ⟨(p, c), hc, rfl⟩

theorem lookupF_nil {α : Type} (p : RelPath) :
    lookupF ([] : List (RelPath × α)) p = none := rfl

theorem lookupF_cons {α : Type} (e : RelPath × α) (l : List (RelPath × α))
    (p : RelPath) :
    lookupF (e :: l) p = if e.1 = p then some e.2 else lookupF l p := by
  by_cases h : e.1 = p
  · rw [if_pos h]
    unfold lookupF
    rw [List.find?_cons_of_pos _ (by simpa using h)]
    rfl
  · rw [if_neg h]
    unfold lookupF
    rw [List.find?_cons_of_neg _ (by simpa using h)]

theorem lookupF_isSome_iff {α : Type} {l : List (RelPath × α)} {p : RelPath} :
    (lookupF l p).isSome = true ↔ p ∈ keysOf l := by
  induction l with
  | nil => rw [lookupF_nil, keysOf_nil]; simp
  | cons e rest ih =>
      rw [lookupF_cons, keysOf_cons]
      by_cases h : e.1 = p
      · simp [h]
      · rw [if_neg h]
        constructor
        · intro hx
          exact List.mem_cons_of_mem _ (ih.mp hx)
        · intro hx
          rcases List.mem_cons.mp hx with h1 | h1
          · exact absurd h1.symm h
          · exact ih.mpr h1

theorem lookupF_eq_none_iff {α : Type} {l : List (RelPath × α)} {p : RelPath} :
    lookupF l p = none ↔ p ∉ keysOf l := by
  constructor
  · intro h hmem
    have hx := lookupF_isSome_iff.mpr hmem
    rw [h] at hx
    simp at hx
  · intro h
    cases hx : lookupF l p with
    | none => rfl
    | some c => exact absurd (lookupF_isSome_iff.mp (by rw [hx]; rfl)) h

theorem mem_of_lookupF {α : Type} {l : List (RelPath × α)} {p : RelPath} {c : α}
    (h : lookupF l p = some c) : (p, c) ∈ l := by
  unfold lookupF at h
  rcases Option.map_eq_some'.mp h with ⟨e, he, hc⟩
  have h1 := List.mem_of_find?_eq_some he
  have h2 := List.find?_some he
  have h3 : e.1 = p := by simpa using h2
  have h4 : e = (p, c) := by
    cases e
    simp_all
  rwa [h4] at h1

theorem lookupF_of_mem_nodup {α : Type} {l : List (RelPath × α)} {p : RelPath}
    {c : α} (hnd : (keysOf l).Nodup) (h : (p, c) ∈ l) : lookupF l p = some c := by
  induction l with
  | nil => simp at h
  | cons e rest ih =>
      rw [keysOf_cons, List.nodup_cons] at hnd
      rcases List.mem_cons.mp h with he | hrest
      · rw [← he, lookupF_cons, if_pos rfl]
      · have hne : e.1 ≠ p := by
          intro hcontra
          exact hnd.1 (hcontra ▸ mem_keysOf.mpr ⟨c, hrest⟩)
        rw [lookupF_cons, if_neg hne]
        exact ih hnd.2 hrest

theorem lookupF_filter_key {α : Type} (l : List (RelPath × α)) (p : RelPath)
    (q : RelPath → Bool) :
    lookupF (l.filter (fun e => q e.1)) p =
      if q p = true then lookupF l p else none := by
  induction l with
  | nil => rw [List.filter_nil, lookupF_nil]; simp
  | cons e rest ih =>
      simp only [List.filter_cons]
      by_cases hq : q e.1 = true
      · rw [if_pos hq, lookupF_cons, lookupF_cons]
        by_cases he : e.1 = p
        · rw [if_pos he, if_pos he, if_pos (he ▸ hq)]
        · rw [if_neg he, if_neg he, ih]
      · rw [if_neg hq, ih]
        by_cases he : e.1 = p
        · rw [lookupF_cons, if_pos he, if_neg (he ▸ hq), if_neg (he ▸ hq)]
        · rw [lookupF_cons, if_neg he]

theorem lookupF_setKey {α : Type} (l : List (RelPath × α)) (p : RelPath) (c : α)
    (q : RelPath) :
    lookupF (setKey l p c) q = if q = p then some c else lookupF l q := by
  induction l with
  | nil =>
      by_cases hq : q = p
      · rw [hq]
        simp [setKey, lookupF_cons]
      · have h1 : ¬(p = q) := fun hx => hq hx.symm
        simp [setKey, lookupF_cons, lookupF_nil, hq, h1]
  | cons e rest ih =>
      simp only [setKey]
      by_cases he : e.1 = p
      · rw [if_pos he]
        by_cases hq : q = p
        · simp [lookupF_cons, hq, ih]
        · have h1 : ¬(p = q) := fun hx => hq hx.symm
          have h2 : e.1 ≠ q := by rw [he]; exact h1
          simp [lookupF_cons, ih, hq, h1, h2]
      · rw [if_neg he]
        by_cases hq : q = p
        · subst hq
          simp [lookupF_cons, ih, he]
        · simp [lookupF_cons, ih, hq]

theorem mem_setKey {α : Type} {l : List (RelPath × α)} {p : RelPath} {c : α}
    {e : RelPath × α} :
    e ∈ setKey l p c ↔ (e ∈ l ∧ e.1 ≠ p) ∨ e = (p, c) := by
  induction l with
  | nil => simp [setKey]
  | cons x rest ih =>
      simp only [setKey]
      by_cases hx : x.1 = p
      · rw [if_pos hx]
        simp only [List.mem_cons, ih]
        have hxx : e = x → e.1 = p := fun h => by rw [h]; exact hx
        tauto
      · rw [if_neg hx]
        simp only [List.mem_cons, ih]
        have hxx : e = x → e.1 ≠ p := fun h => by rw [h]; exact hx
        tauto


theorem copyDirsOp_nil (ok : RelPath → Bool) (d : FileSets) :
    copyDirsOp ok [] d = d := rfl

theorem copyDirsOp_cons (ok : RelPath → Bool) (p : RelPath) (rest : List RelPath)
    (d : FileSets) :
    copyDirsOp ok (p :: rest) d =
      copyDirsOp ok rest
        (if ok p && !(d.dirs.contains p) then { d with dirs := d.dirs ++ [p] }
         else d) := rfl

theorem copyFilesOp_nil (ok : RelPath → Bool) (s d : FileSets) :
    copyFilesOp ok [] s d = d := rfl

theorem copyFilesOp_cons (ok : RelPath → Bool) (p : RelPath) (rest : List RelPath)
    (s d : FileSets) :
    copyFilesOp ok (p :: rest) s d =
      copyFilesOp ok rest s
        (if ok p then { d with files := setKey d.files p ((lookupF s.files p).getD []) }
         else d) := rfl

theorem copySymlinksOp_nil (ok : RelPath → Bool) (d : FileSets) :
    copySymlinksOp ok [] d = d := rfl

theorem copySymlinksOp_cons (ok : RelPath → Bool) (e : RelPath × String)
    (rest : List (RelPath × String)) (d : FileSets) :
    copySymlinksOp ok (e :: rest) d =
      copySymlinksOp ok rest
        (if ok e.1 then { d with symlinks := setKey d.symlinks e.1 e.2 } else d) := rfl

theorem copyDirsOp_files (ok : RelPath → Bool) (tc : List RelPath) :
    ∀ d : FileSets, (copyDirsOp ok tc d).files = d.files := by
  induction tc with
  | nil => intro d; rfl
  | cons p rest ih =>
      intro d
      rw [copyDirsOp_cons, ih]
      by_cases h : (ok p && !(d.dirs.contains p)) = true
      · rw [if_pos h]
      · rw [if_neg h]

theorem copyDirsOp_symlinks (ok : RelPath → Bool) (tc : List RelPath) :
    ∀ d : FileSets, (copyDirsOp ok tc d).symlinks = d.symlinks := by
  induction tc with
  | nil => intro d; rfl
  | cons p rest ih =>
      intro d
      rw [copyDirsOp_cons, ih]
      by_cases h : (ok p && !(d.dirs.contains p)) = true
      · rw [if_pos h]
      · rw [if_neg h]

theorem copyFilesOp_dirs (ok : RelPath → Bool) (tc : List RelPath) (s : FileSets) :
    ∀ d : FileSets, (copyFilesOp ok tc s d).dirs = d.dirs := by
  induction tc with
  | nil => intro d; rfl
  | cons p rest ih =>
      intro d
      rw [copyFilesOp_cons, ih]
      by_cases h : ok p = true
      · rw [if_pos h]
      · rw [if_neg h]

theorem copyFilesOp_symlinks (ok : RelPath → Bool) (tc : List RelPath) (s : FileSets) :
    ∀ d : FileSets, (copyFilesOp ok tc s d).symlinks = d.symlinks := by
  induction tc with
  | nil => intro d; rfl
  | cons p rest ih =>
      intro d
      rw [copyFilesOp_cons, ih]
      by_cases h : ok p = true
      · rw [if_pos h]
      · rw [if_neg h]

theorem copySymlinksOp_files (ok : RelPath → Bool) (tc : List (RelPath × String)) :
    ∀ d : FileSets, (copySymlinksOp ok tc d).files = d.files := by
  induction tc with
  | nil => intro d; rfl
  | cons e rest ih =>
      intro d
      rw [copySymlinksOp_cons, ih]
      by_cases h : ok e.1 = true
      · rw [if_pos h]
      · rw [if_neg h]

theorem copySymlinksOp_dirs (ok : RelPath → Bool) (tc : List (RelPath × String)) :
    ∀ d : FileSets, (copySymlinksOp ok tc d).dirs = d.dirs := by
  induction tc with
  | nil => intro d; rfl
  | cons e rest ih =>
      intro d
      rw [copySymlinksOp_cons, ih]
      by_cases h : ok e.1 = true
      · rw [if_pos h]
      · rw [if_neg h]

theorem compareAndCopyOp_fst_dirs (ok : RelPath → Bool) (tc : List RelPath)
    (s : FileSets) : ∀ d : FileSets, (compareAndCopyOp ok tc s d).1.dirs = d.dirs := by
  induction tc with
  | nil => intro d; rfl
  | cons p rest ih =>
      intro d
      rw [compareAndCopyOp]
      by_cases h : (ok p && (lookupF d.files p != lookupF s.files p)) = true
      · rw [if_pos h]
        exact ih _
      · rw [if_neg h]
        exact ih _

theorem compareAndCopyOp_fst_symlinks (ok : RelPath → Bool) (tc : List RelPath)
    (s : FileSets) :
    ∀ d : FileSets, (compareAndCopyOp ok tc s d).1.symlinks = d.symlinks := by
  induction tc with
  | nil => intro d; rfl
  | cons p rest ih =>
      intro d
      rw [compareAndCopyOp]
      by_cases h : (ok p && (lookupF d.files p != lookupF s.files p)) = true
      · rw [if_pos h]
        exact ih _
      · rw [if_neg h]
        exact ih _


theorem bool_eq_false {b : Bool} (h : ¬b = true) : b = false := by
  cases b
  · rfl
  · exact absurd rfl h

theorem contains_eq_false {α : Type} [BEq α] [LawfulBEq α] {l : List α} {a : α}
    (h : a ∉ l) : l.contains a = false :=
  bool_eq_false (fun hx => h (contains_iff.mp hx))

theorem lookupF_deleteFilesOp (ok : RelPath → Bool) (del : List RelPath)
    (d : FileSets) (p : RelPath) :
    lookupF (deleteFilesOp ok del d).files p =
      if p ∈ del ∧ ok p = true then none else lookupF d.files p := by
  have h0 := lookupF_filter_key d.files p (fun x => !(del.contains x && ok x))
  show lookupF (d.files.filter (fun e => !(del.contains e.1 && ok e.1))) p = _
  rw [h0]
  by_cases hm : p ∈ del
  · by_cases ho : ok p = true
    · have hcp : del.contains p = true := contains_iff.mpr hm
      have hnb : ¬((!(del.contains p && ok p)) = true) := by
        simp [ho]
        exact hm
      rw [if_neg hnb, if_pos ⟨hm, ho⟩]
    · have hb : (!(del.contains p && ok p)) = true := by simp [bool_eq_false ho]
      rw [if_pos hb, if_neg (fun hc => ho hc.2)]
  · have hb : (!(del.contains p && ok p)) = true := by
      simp
      exact Or.inl hm
    rw [if_pos hb, if_neg (fun hc => hm hc.1)]

theorem mem_deleteSymlinksOp (ok : RelPath → Bool) (del : List (RelPath × String))
    (d : FileSets) (e : RelPath × String) :
    e ∈ (deleteSymlinksOp ok del d).symlinks ↔
      e ∈ d.symlinks ∧ ¬(e ∈ del ∧ ok e.1 = true) := by
  show e ∈ d.symlinks.filter _ ↔ _
  rw [List.mem_filter]
  apply and_congr_right
  intro _
  constructor
  · intro hb hcon
    rw [contains_iff.mpr hcon.1, hcon.2] at hb
    simp at hb
  · intro hn
    by_cases hm : e ∈ del
    · have ho : ok e.1 = false := bool_eq_false (fun hx => hn ⟨hm, hx⟩)
      simp [ho]
    · simp
      exact Or.inl hm

theorem mem_deleteDirsOp (ok : RelPath → Bool) (del : List RelPath)
    (d : FileSets) (p : RelPath) :
    p ∈ (deleteDirsOp ok del d).dirs ↔ p ∈ d.dirs ∧ ¬(p ∈ del ∧ ok p = true) := by
  show p ∈ d.dirs.filter _ ↔ _
  rw [List.mem_filter]
  apply and_congr_right
  intro _
  constructor
  · intro hb hcon
    rw [contains_iff.mpr hcon.1, hcon.2] at hb
    simp at hb
  · intro hn
    by_cases hm : p ∈ del
    · have ho : ok p = false := bool_eq_false (fun hx => hn ⟨hm, hx⟩)
      simp [ho]
    · simp
      exact Or.inl hm

theorem mem_copyDirsOp (ok : RelPath → Bool) (tc : List RelPath) (p : RelPath) :
    ∀ d : FileSets,
      p ∈ (copyDirsOp ok tc d).dirs ↔ p ∈ d.dirs ∨ (p ∈ tc ∧ ok p = true) := by
  induction tc with
  | nil =>
      intro d
      rw [copyDirsOp_nil]
      simp
  | cons x rest ih =>
      intro d
      rw [copyDirsOp_cons]
      by_cases h : (ok x && !(d.dirs.contains x)) = true
      · rw [if_pos h, ih]
        simp only [Bool.and_eq_true] at h
        have hpx : p = x → ok p = true := fun hp => hp ▸ h.1
        simp only [List.mem_append, List.mem_singleton, List.mem_cons]
        tauto
      · rw [if_neg h, ih]
        have hc : p = x → ok p = true → p ∈ d.dirs := by
          intro hp hokp
          have hox : ok x = true := hp ▸ hokp
          have hcx : d.dirs.contains x = true := by
            rcases Bool.eq_false_or_eq_true (d.dirs.contains x) with hx | hx
            · exact hx
            · exact absurd (by rw [hox, hx]; rfl) h
          exact hp ▸ contains_iff.mp hcx
        simp only [List.mem_cons]
        tauto

theorem lookupF_copyFilesOp (ok : RelPath → Bool) (tc : List RelPath)
    (s : FileSets) (p : RelPath) :
    ∀ d : FileSets,
      lookupF (copyFilesOp ok tc s d).files p =
        if p ∈ tc ∧ ok p = true then some ((lookupF s.files p).getD [])
        else lookupF d.files p := by
  induction tc with
  | nil =>
      intro d
      rw [copyFilesOp_nil]
      simp
  | cons x rest ih =>
      intro d
      rw [copyFilesOp_cons]
      by_cases hok : ok x = true
      · rw [if_pos hok, ih]
        by_cases hpx : p = x
        · subst hpx
          rw [show ({ d with files := setKey d.files p ((lookupF s.files p).getD []) } : FileSets).files
                = setKey d.files p ((lookupF s.files p).getD []) from rfl]
          rw [lookupF_setKey]
          by_cases hpr : p ∈ rest ∧ ok p = true
          · rw [if_pos hpr, if_pos ⟨List.mem_cons_self _ _, hok⟩]
          · rw [if_neg hpr, if_pos rfl, if_pos ⟨List.mem_cons_self _ _, hok⟩]
        · rw [show ({ d with files := setKey d.files x ((lookupF s.files x).getD []) } : FileSets).files
                = setKey d.files x ((lookupF s.files x).getD []) from rfl]
          rw [lookupF_setKey, if_neg hpx]
          by_cases hpr : p ∈ rest ∧ ok p = true
          · rw [if_pos hpr, if_pos ⟨List.mem_cons_of_mem _ hpr.1, hpr.2⟩]
          · rw [if_neg hpr, if_neg]
            intro hcon
            rcases List.mem_cons.mp hcon.1 with h1 | h1
            · exact hpx h1
            · exact hpr ⟨h1, hcon.2⟩
      · rw [if_neg hok, ih]
        by_cases hpr : p ∈ rest ∧ ok p = true
        · rw [if_pos hpr, if_pos ⟨List.mem_cons_of_mem _ hpr.1, hpr.2⟩]
        · rw [if_neg hpr, if_neg]
          intro hcon
          rcases List.mem_cons.mp hcon.1 with h1 | h1
          · exact hok (h1 ▸ hcon.2)
          · exact hpr ⟨h1, hcon.2⟩

theorem lookupF_copySymlinksOp_not_mem (ok : RelPath → Bool)
    (tc : List (RelPath × String)) (p : RelPath) (h : p ∉ keysOf tc) :
    ∀ d : FileSets,
      lookupF (copySymlinksOp ok tc d).symlinks p = lookupF d.symlinks p := by
  induction tc with
  | nil => intro d; rw [copySymlinksOp_nil]
  | cons x rest ih =>
      intro d
      rw [keysOf_cons] at h
      have h1 : p ∉ keysOf rest := fun hx => h (List.mem_cons_of_mem _ hx)
      have h2 : x.1 ≠ p := fun hx => h (hx ▸ List.mem_cons_self _ _)
      rw [copySymlinksOp_cons]
      by_cases hok : ok x.1 = true
      · rw [if_pos hok, ih h1]
        rw [show ({ d with symlinks := setKey d.symlinks x.1 x.2 } : FileSets).symlinks
              = setKey d.symlinks x.1 x.2 from rfl]
        rw [lookupF_setKey, if_neg (fun hx => h2 hx.symm)]
      · rw [if_neg hok, ih h1]

theorem keysOf_filter_subset {α : Type} {l : List (RelPath × α)}
    {f : RelPath × α → Bool} {q : RelPath} (h : q ∈ keysOf (l.filter f)) :
    q ∈ keysOf l := by
  rcases mem_keysOf.mp h with ⟨c, hc⟩
  exact mem_keysOf.mpr ⟨c, (List.mem_filter.mp hc).1⟩

theorem mem_copySymlinksOp (ok : RelPath → Bool) (tc : List (RelPath × String))
    (e : RelPath × String) (hnd : (keysOf tc).Nodup) :
    ∀ d : FileSets,
      e ∈ (copySymlinksOp ok tc d).symlinks ↔
        (e ∈ d.symlinks ∧ e.1 ∉ keysOf (tc.filter (fun x => ok x.1))) ∨
          (e ∈ tc ∧ ok e.1 = true) := by
  induction tc with
  | nil =>
      intro d
      rw [copySymlinksOp_nil]
      simp [keysOf_nil]
  | cons x rest ih =>
      intro d
      rw [keysOf_cons, List.nodup_cons] at hnd
      rw [copySymlinksOp_cons]
      by_cases hok : ok x.1 = true
      · rw [if_pos hok, ih hnd.2]
        rw [show ({ d with symlinks := setKey d.symlinks x.1 x.2 } : FileSets).symlinks
              = setKey d.symlinks x.1 x.2 from rfl]
        have hfc : (x :: rest).filter (fun y => ok y.1) = x :: rest.filter (fun y => ok y.1) := by
          rw [List.filter_cons, if_pos hok]
        rw [hfc, keysOf_cons]
        simp only [mem_setKey, List.mem_cons]
        have hxeta : (x.1, x.2) = x := rfl
        constructor
        · rintro (⟨h1 | h1, h2⟩ | ⟨h1, h2⟩)
          · rcases h1 with ⟨h3, h4⟩
            · exact Or.inl ⟨h3, by
                intro hc
                rcases hc with hc | hc
                · exact h4 hc
                · exact h2 hc⟩
          · rw [hxeta] at h1
            exact Or.inr ⟨Or.inl h1, h1 ▸ hok⟩
          · exact Or.inr ⟨Or.inr h1, h2⟩
        · rintro (⟨h1, h2⟩ | ⟨h1 | h1, h2⟩)
          · have h3 : e.1 ≠ x.1 := fun hc => h2 (Or.inl hc)
            have h4 : e.1 ∉ keysOf (rest.filter (fun y => ok y.1)) :=
              fun hc => h2 (Or.inr hc)
            exact Or.inl ⟨Or.inl ⟨h1, h3⟩, h4⟩
          · have h5 : e.1 ∉ keysOf (rest.filter (fun y => ok y.1)) := by
              intro hc
              exact hnd.1 (h1 ▸ keysOf_filter_subset hc)
            exact Or.inl ⟨Or.inr (by rw [h1, hxeta]), h5⟩
          · exact Or.inr ⟨h1, h2⟩
      · rw [if_neg hok, ih hnd.2]
        have hfc : (x :: rest).filter (fun y => ok y.1) = rest.filter (fun y => ok y.1) := by
          rw [List.filter_cons, if_neg (by simp [hok])]
        rw [hfc]
        simp only [List.mem_cons]
        have hex : e = x → ok e.1 = false := fun hc => hc ▸ bool_eq_false hok
        constructor
        · rintro (⟨h1, h2⟩ | ⟨h1, h2⟩)
          · exact Or.inl ⟨h1, h2⟩
          · exact Or.inr ⟨Or.inr h1, h2⟩
        · rintro (⟨h1, h2⟩ | ⟨h1 | h1, h2⟩)
          · exact Or.inl ⟨h1, h2⟩
          · rw [hex h1] at h2
            simp at h2
          · exact Or.inr ⟨h1, h2⟩

theorem compareAndCopyOp_cons_pos (ok : RelPath → Bool) (p : RelPath)
    (rest : List RelPath) (s d : FileSets)
    (h : (ok p && (lookupF d.files p != lookupF s.files p)) = true) :
    compareAndCopyOp ok (p :: rest) s d =
      ((compareAndCopyOp ok rest s
          { d with files := setKey d.files p ((lookupF s.files p).getD []) }).1,
       p :: (compareAndCopyOp ok rest s
          { d with files := setKey d.files p ((lookupF s.files p).getD []) }).2) := by
  rw [compareAndCopyOp, if_pos h]

theorem compareAndCopyOp_cons_neg (ok : RelPath → Bool) (p : RelPath)
    (rest : List RelPath) (s d : FileSets)
    (h : ¬(ok p && (lookupF d.files p != lookupF s.files p)) = true) :
    compareAndCopyOp ok (p :: rest) s d = compareAndCopyOp ok rest s d := by
  rw [compareAndCopyOp, if_neg h]

theorem lookupF_compareAndCopyOp (ok : RelPath → Bool) (tc : List RelPath)
    (s : FileSets) (p : RelPath) :
    tc.Nodup → ∀ d : FileSets,
      lookupF (compareAndCopyOp ok tc s d).1.files p =
        if p ∈ tc ∧ ok p = true ∧ lookupF d.files p ≠ lookupF s.files p
        then some ((lookupF s.files p).getD [])
        else lookupF d.files p := by
  induction tc with
  | nil =>
      intro _ d
      rw [compareAndCopyOp]
      simp
  | cons x rest ih =>
      intro hnd d
      rw [List.nodup_cons] at hnd
      by_cases hsel : (ok x && (lookupF d.files x != lookupF s.files x)) = true
      · rw [compareAndCopyOp_cons_pos ok x rest s d hsel]
        simp only [Bool.and_eq_true, bne_iff_ne] at hsel
        rw [ih hnd.2]
        rw [show ({ d with files := setKey d.files x ((lookupF s.files x).getD []) } : FileSets).files
              = setKey d.files x ((lookupF s.files x).getD []) from rfl]
        by_cases hpx : p = x
        · subst hpx
          rw [lookupF_setKey, if_pos rfl,
              if_neg (fun hc => hnd.1 hc.1),
              if_pos ⟨List.mem_cons_self _ _, hsel.1, hsel.2⟩]
        · rw [lookupF_setKey, if_neg hpx]
          have hiff : (p ∈ rest ∧ ok p = true ∧ lookupF d.files p ≠ lookupF s.files p) ↔
              (p ∈ x :: rest ∧ ok p = true ∧ lookupF d.files p ≠ lookupF s.files p) :=
            and_congr_left'
              ⟨List.mem_cons_of_mem _, fun h => (List.mem_cons.mp h).resolve_left hpx⟩
          rw [if_congr hiff rfl rfl]
      · rw [compareAndCopyOp_cons_neg ok x rest s d hsel, ih hnd.2]
        by_cases hpx : p = x
        · subst hpx
          have hc2 : ¬(p ∈ p :: rest ∧ ok p = true ∧
              lookupF d.files p ≠ lookupF s.files p) := by
            rintro ⟨_, hok, hdiff⟩
            exact hsel (by simp [hok, bne_iff_ne, hdiff])
          rw [if_neg (fun hc => hnd.1 hc.1), if_neg hc2]
        · have hiff : (p ∈ rest ∧ ok p = true ∧ lookupF d.files p ≠ lookupF s.files p) ↔
              (p ∈ x :: rest ∧ ok p = true ∧ lookupF d.files p ≠ lookupF s.files p) :=
            and_congr_left'
              ⟨List.mem_cons_of_mem _, fun h => (List.mem_cons.mp h).resolve_left hpx⟩
          rw [if_congr hiff rfl rfl]

theorem compareAndCopyOp_self (ok : RelPath → Bool) (tc : List RelPath)
    (s d : FileSets)
    (h : ∀ p ∈ tc, ok p = true → lookupF d.files p = lookupF s.files p) :
    compareAndCopyOp ok tc s d = (d, []) := by
  induction tc with
  | nil => rw [compareAndCopyOp]
  | cons x rest ih =>
      have hsel : ¬(ok x && (lookupF d.files x != lookupF s.files x)) = true := by
        intro hc
        simp only [Bool.and_eq_true, bne_iff_ne] at hc
        exact hc.2 (h x (List.mem_cons_self _ _) hc.1)
      rw [compareAndCopyOp_cons_neg ok x rest s d hsel]
      exact ih (fun q hq hoq => h q (List.mem_cons_of_mem _ hq) hoq)

theorem lookupF_compareAndCopyOp_not_mem (ok : RelPath → Bool)
    (tc : List RelPath) (s : FileSets) (p : RelPath) (h : p ∉ tc) :
    ∀ d : FileSets,
      lookupF (compareAndCopyOp ok tc s d).1.files p = lookupF d.files p := by
  induction tc with
  | nil => intro d; rw [compareAndCopyOp]
  | cons x rest ih =>
      intro d
      have hpx : p ≠ x := fun hc => h (hc ▸ List.mem_cons_self _ _)
      have h1 : p ∉ rest := fun hc => h (List.mem_cons_of_mem _ hc)
      by_cases hsel : (ok x && (lookupF d.files x != lookupF s.files x)) = true
      · rw [compareAndCopyOp_cons_pos ok x rest s d hsel, ih h1]
        rw [show ({ d with files := setKey d.files x ((lookupF s.files x).getD []) } : FileSets).files
              = setKey d.files x ((lookupF s.files x).getD []) from rfl]
        rw [lookupF_setKey, if_neg hpx]
      · rw [compareAndCopyOp_cons_neg ok x rest s d hsel, ih h1]

theorem mem_filter_not_contains {α : Type} [BEq α] [LawfulBEq α]
    {l m : List α} {a : α} :
    a ∈ l.filter (fun x => !(m.contains x)) ↔ a ∈ l ∧ a ∉ m := by
  rw [List.mem_filter]
  apply and_congr_right
  intro _
  constructor
  · intro hb hm
    rw [contains_iff.mpr hm] at hb
    simp at hb
  · intro hm
    simp
    exact hm

theorem mem_filter_contains {α : Type} [BEq α] [LawfulBEq α]
    {l m : List α} {a : α} :
    a ∈ l.filter (fun x => m.contains x) ↔ a ∈ l ∧ a ∈ m := by
  rw [List.mem_filter]
  exact and_congr_right (fun _ => contains_iff)

theorem mem_filesToDelete {s d : FileSets} {p : RelPath} :
    p ∈ filesToDelete s d ↔ p ∈ keysOf d.files ∧ p ∉ keysOf s.files :=
  mem_filter_not_contains

theorem mem_symlinksToDelete {s d : FileSets} {e : RelPath × String} :
    e ∈ symlinksToDelete s d ↔ e ∈ d.symlinks ∧ e ∉ s.symlinks :=
  mem_filter_not_contains

theorem mem_dirsToCopy {s d : FileSets} {p : RelPath} :
    p ∈ dirsToCopy s d ↔ p ∈ s.dirs ∧ p ∉ d.dirs :=
  mem_filter_not_contains

theorem mem_symlinksToCopy {s d : FileSets} {e : RelPath × String} :
    e ∈ symlinksToCopy s d ↔ e ∈ s.symlinks ∧ e ∉ d.symlinks :=
  mem_filter_not_contains

theorem mem_filesToCopy {s d : FileSets} {p : RelPath} :
    p ∈ filesToCopy s d ↔ p ∈ keysOf s.files ∧ p ∉ keysOf d.files :=
  mem_filter_not_contains

theorem mem_filesToCompare {s d : FileSets} {p : RelPath} :
    p ∈ filesToCompare s d ↔ p ∈ keysOf s.files ∧ p ∈ keysOf d.files :=
  mem_filter_contains

theorem mem_dirsToDelete {s d : FileSets} {p : RelPath} :
    p ∈ dirsToDelete s d ↔ p ∈ d.dirs ∧ p ∉ s.dirs :=
  mem_filter_not_contains

theorem keysOf_filter_sublist {α : Type} (l : List (RelPath × α))
    (f : RelPath × α → Bool) : (keysOf (l.filter f)).Sublist (keysOf l) :=
  (List.filter_sublist l).map Prod.fst

theorem filesToCompare_nodup {s d : FileSets} (hs : (keysOf s.files).Nodup) :
    (filesToCompare s d).Nodup :=
  hs.filter _

theorem symlinksToCopy_keys_nodup {s d : FileSets}
    (hs : (keysOf s.symlinks).Nodup) : (keysOf (symlinksToCopy s d)).Nodup :=
  (keysOf_filter_sublist _ _).nodup hs

theorem stageDelSym_files (ok : RelPath → Bool) (s d : FileSets) (flags : Nat) :
    (stageDelSym ok s d flags).files = d.files := by
  unfold stageDelSym
  split <;> rfl

theorem stageDelSym_dirs (ok : RelPath → Bool) (s d : FileSets) (flags : Nat) :
    (stageDelSym ok s d flags).dirs = d.dirs := by
  unfold stageDelSym
  split <;> rfl

theorem stageDelFiles_dirs (ok : RelPath → Bool) (s d : FileSets) (flags : Nat) :
    (stageDelFiles ok s d flags).dirs = d.dirs := by
  unfold stageDelFiles
  split <;> rw [← stageDelSym_dirs ok s d flags] <;> rfl

theorem stageDelFiles_symlinks (ok : RelPath → Bool) (s d : FileSets) (flags : Nat) :
    (stageDelFiles ok s d flags).symlinks = (stageDelSym ok s d flags).symlinks := by
  unfold stageDelFiles
  split <;> rfl

theorem syncTree_files_lookup_aux (ok : RelPath → Bool) (s d : FileSets)
    (flags : Nat) (p : RelPath) :
    lookupF (syncTree ok s d flags).files p =
      lookupF (stageCompare ok s d flags).1.files p := by
  unfold syncTree
  split <;> rfl

theorem stageDelFiles_files_lookup (ok : RelPath → Bool) (s d : FileSets)
    (flags : Nat) (p : RelPath) :
    lookupF (stageDelFiles ok s d flags).files p =
      if deleteOn flags = true ∧ p ∈ keysOf d.files ∧ p ∉ keysOf s.files ∧ ok p = true
      then none else lookupF d.files p := by
  unfold stageDelFiles
  by_cases hdel : deleteOn flags = true
  · rw [if_pos hdel]
    have h0 := lookupF_deleteFilesOp ok (filesToDelete s d) (stageDelSym ok s d flags) p
    rw [stageDelSym_files] at h0
    rw [h0]
    by_cases hc : p ∈ filesToDelete s d ∧ ok p = true
    · rcases mem_filesToDelete.mp hc.1 with ⟨h1, h2⟩
      rw [if_pos hc, if_pos ⟨hdel, h1, h2, hc.2⟩]
    · rw [if_neg hc, if_neg]
      rintro ⟨-, h1, h2, h3⟩
      exact hc ⟨mem_filesToDelete.mpr ⟨h1, h2⟩, h3⟩
  · rw [if_neg hdel, stageDelSym_files, if_neg (fun hc => hdel hc.1)]

theorem key_unique {α : Type} {l : List (RelPath × α)} {p : RelPath} {a b : α}
    (hnd : (keysOf l).Nodup) (h1 : (p, a) ∈ l) (h2 : (p, b) ∈ l) : a = b := by
  have ha := lookupF_of_mem_nodup hnd h1
  have hb := lookupF_of_mem_nodup hnd h2
  rw [ha] at hb
  exact Option.some.inj hb

theorem syncTree_files_allOk (s d : FileSets) (flags : Nat)
    (hs : (keysOf s.files).Nodup) (p : RelPath) :
    lookupF (syncTree allOk s d flags).files p =
      if p ∈ keysOf s.files then lookupF s.files p
      else if deleteOn flags = true then none else lookupF d.files p := by
  have e1 : lookupF (stageCopyFiles allOk s d flags).files p =
      if p ∈ filesToCopy s d then some ((lookupF s.files p).getD [])
      else lookupF (stageDelFiles allOk s d flags).files p := by
    have h0 := lookupF_copyFilesOp allOk (filesToCopy s d) s p
        (stageCopySym allOk s d flags)
    have hf1 : (stageCopySym allOk s d flags).files =
        (stageDelFiles allOk s d flags).files := by
      rw [show stageCopySym allOk s d flags =
            copySymlinksOp allOk (symlinksToCopy s d) (stageCopyDirs allOk s d flags)
          from rfl,
          copySymlinksOp_files,
          show stageCopyDirs allOk s d flags =
            copyDirsOp allOk (dirsToCopy s d) (stageDelFiles allOk s d flags)
          from rfl,
          copyDirsOp_files]
    rw [hf1] at h0
    rw [show stageCopyFiles allOk s d flags =
          copyFilesOp allOk (filesToCopy s d) s (stageCopySym allOk s d flags)
        from rfl,
        h0]
    simp only [allOk, and_true]
  have e2 := stageDelFiles_files_lookup allOk s d flags p
  simp only [allOk, and_true] at e2
  rw [syncTree_files_lookup_aux,
      show stageCompare allOk s d flags =
        compareAndCopyOp allOk (filesToCompare s d) s (stageCopyFiles allOk s d flags)
      from rfl,
      lookupF_compareAndCopyOp allOk (filesToCompare s d) s p
        (filesToCompare_nodup hs) (stageCopyFiles allOk s d flags)]
  simp only [allOk, true_and]
  rw [e1, e2]
  by_cases hps : p ∈ keysOf s.files
  · obtain ⟨cs, hcs⟩ := Option.isSome_iff_exists.mp (lookupF_isSome_iff.mpr hps)
    have hgd : some ((lookupF s.files p).getD []) = lookupF s.files p := by
      rw [hcs]
      rfl
    have hdelc : ¬(deleteOn flags = true ∧ p ∈ keysOf d.files ∧ p ∉ keysOf s.files) :=
      fun hc => hc.2.2 hps
    rw [if_neg hdelc]
    by_cases hpd : p ∈ keysOf d.files
    · have h1 : p ∉ filesToCopy s d := fun hc => (mem_filesToCopy.mp hc).2 hpd
      have h2 : p ∈ filesToCompare s d := mem_filesToCompare.mpr ⟨hps, hpd⟩
      rw [if_neg h1, if_pos hps]
      by_cases heq : lookupF d.files p = lookupF s.files p
      · rw [if_neg (by rintro ⟨-, hne⟩; exact hne heq)]
        exact heq
      · rw [if_pos ⟨h2, heq⟩]
        exact hgd
    · have h1 : p ∈ filesToCopy s d := mem_filesToCopy.mpr ⟨hps, hpd⟩
      have h2 : p ∉ filesToCompare s d := fun hc => hpd (mem_filesToCompare.mp hc).2
      rw [if_pos h1, if_pos hps, if_neg (fun hc => h2 hc.1)]
      exact hgd
  · have h1 : p ∉ filesToCopy s d := fun hc => hps (mem_filesToCopy.mp hc).1
    have h2 : p ∉ filesToCompare s d := fun hc => hps (mem_filesToCompare.mp hc).1
    rw [if_neg h1, if_neg (fun hc => h2 hc.1), if_neg hps]
    by_cases hdel : deleteOn flags = true
    · rw [if_pos hdel]
      by_cases hpd : p ∈ keysOf d.files
      · rw [if_pos ⟨hdel, hpd, hps⟩]
      · rw [if_neg (fun hc => hpd hc.2.1)]
        exact lookupF_eq_none_iff.mpr hpd
    · rw [if_neg hdel, if_neg (fun hc => hdel hc.1)]

theorem stageCompare_fst_dirs (ok : RelPath → Bool) (s d : FileSets) (flags : Nat) :
    (stageCompare ok s d flags).1.dirs = (stageCopyDirs ok s d flags).dirs := by
  rw [show stageCompare ok s d flags =
        compareAndCopyOp ok (filesToCompare s d) s (stageCopyFiles ok s d flags)
      from rfl,
      compareAndCopyOp_fst_dirs,
      show stageCopyFiles ok s d flags =
        copyFilesOp ok (filesToCopy s d) s (stageCopySym ok s d flags)
      from rfl,
      copyFilesOp_dirs,
      show stageCopySym ok s d flags =
        copySymlinksOp ok (symlinksToCopy s d) (stageCopyDirs ok s d flags)
      from rfl,
      copySymlinksOp_dirs]

theorem syncTree_symlinks_eq (ok : RelPath → Bool) (s d : FileSets) (flags : Nat) :
    (syncTree ok s d flags).symlinks = (stageCopySym ok s d flags).symlinks := by
  have h1 : (stageCompare ok s d flags).1.symlinks =
      (stageCopySym ok s d flags).symlinks := by
    rw [show stageCompare ok s d flags =
          compareAndCopyOp ok (filesToCompare s d) s (stageCopyFiles ok s d flags)
        from rfl,
        compareAndCopyOp_fst_symlinks,
        show stageCopyFiles ok s d flags =
          copyFilesOp ok (filesToCopy s d) s (stageCopySym ok s d flags)
        from rfl,
        copyFilesOp_symlinks]
  unfold syncTree
  split
  · exact h1
  · exact h1

theorem stageCopyDirs_symlinks (ok : RelPath → Bool) (s d : FileSets) (flags : Nat) :
    (stageCopyDirs ok s d flags).symlinks = (stageDelSym ok s d flags).symlinks := by
  rw [show stageCopyDirs ok s d flags =
        copyDirsOp ok (dirsToCopy s d) (stageDelFiles ok s d flags)
      from rfl,
      copyDirsOp_symlinks,
      stageDelFiles_symlinks]

theorem syncTree_dirs_allOk (s d : FileSets) (flags : Nat) (p : RelPath) :
    p ∈ (syncTree allOk s d flags).dirs ↔
      p ∈ s.dirs ∨ (deleteOn flags = false ∧ p ∈ d.dirs) := by
  have hmem : p ∈ (stageCopyDirs allOk s d flags).dirs ↔
      p ∈ d.dirs ∨ p ∈ dirsToCopy s d := by
    rw [show stageCopyDirs allOk s d flags =
          copyDirsOp allOk (dirsToCopy s d) (stageDelFiles allOk s d flags)
        from rfl,
        mem_copyDirsOp, stageDelFiles_dirs]
    simp only [allOk, and_true]
  unfold syncTree
  by_cases hdel : deleteOn flags = true
  · rw [if_pos hdel]
    rw [mem_deleteDirsOp, stageCompare_fst_dirs, hmem]
    have hsort : p ∈ sortFiles (dirsToDelete s d) ↔ p ∈ dirsToDelete s d :=
      (List.perm_insertionSort dirLe _).mem_iff
    constructor
    · rintro ⟨h1 | h1, h2⟩
      · by_cases hp : p ∈ s.dirs
        · exact Or.inl hp
        · exact absurd ⟨hsort.mpr (mem_dirsToDelete.mpr ⟨h1, hp⟩), rfl⟩ h2
      · exact Or.inl (mem_dirsToCopy.mp h1).1
    · rintro (h1 | h1)
      · refine ⟨?_, ?_⟩
        · by_cases hp : p ∈ d.dirs
          · exact Or.inl hp
          · exact Or.inr (mem_dirsToCopy.mpr ⟨h1, hp⟩)
        · rintro ⟨hc, -⟩
          exact (mem_dirsToDelete.mp (hsort.mp hc)).2 h1
      · rw [hdel] at h1
        exact absurd h1.1 (by simp)
  · rw [if_neg hdel, stageCompare_fst_dirs, hmem]
    constructor
    · rintro (h1 | h1)
      · exact Or.inr ⟨bool_eq_false hdel, h1⟩
      · exact Or.inl (mem_dirsToCopy.mp h1).1
    · rintro (h1 | h1)
      · by_cases hp : p ∈ d.dirs
        · exact Or.inl hp
        · exact Or.inr (mem_dirsToCopy.mpr ⟨h1, hp⟩)
      · exact Or.inl h1.2

theorem stageDelSym_symlinks_mem (ok : RelPath → Bool) (s d : FileSets)
    (flags : Nat) (e : RelPath × String) :
    e ∈ (stageDelSym ok s d flags).symlinks ↔
      e ∈ d.symlinks ∧
        ¬(deleteOn flags = true ∧ e ∈ d.symlinks ∧ e ∉ s.symlinks ∧ ok e.1 = true) := by
  unfold stageDelSym
  by_cases hdel : deleteOn flags = true
  · rw [if_pos hdel, mem_deleteSymlinksOp]
    constructor
    · rintro ⟨h1, h2⟩
      exact ⟨h1, fun hc => h2 ⟨mem_symlinksToDelete.mpr ⟨hc.2.1, hc.2.2.1⟩, hc.2.2.2⟩⟩
    · rintro ⟨h1, h2⟩
      refine ⟨h1, fun hc => ?_⟩
      rcases mem_symlinksToDelete.mp hc.1 with ⟨h3, h4⟩
      exact h2 ⟨hdel, h3, h4, hc.2⟩
  · rw [if_neg hdel]
    exact ⟨fun h => ⟨h, fun hc => hdel hc.1⟩, fun h => h.1⟩

theorem syncTree_symlinks_mem_allOk (s d : FileSets) (flags : Nat)
    (hs3 : (keysOf s.symlinks).Nodup) (e : RelPath × String) :
    e ∈ (syncTree allOk s d flags).symlinks ↔
      e ∈ s.symlinks ∨
        (deleteOn flags = false ∧ e ∈ d.symlinks ∧
          e.1 ∉ keysOf (symlinksToCopy s d)) := by
  rw [syncTree_symlinks_eq,
      show stageCopySym allOk s d flags =
        copySymlinksOp allOk (symlinksToCopy s d) (stageCopyDirs allOk s d flags)
      from rfl,
      mem_copySymlinksOp allOk (symlinksToCopy s d) e (symlinksToCopy_keys_nodup hs3),
      stageCopyDirs_symlinks, stageDelSym_symlinks_mem]
  have hfT : (symlinksToCopy s d).filter (fun x => allOk x.1) = symlinksToCopy s d :=
    List.filter_eq_self.mpr (fun a _ => rfl)
  rw [hfT]
  simp only [allOk, and_true]
  constructor
  · rintro (⟨⟨h1, h2⟩, h3⟩ | h1)
    · by_cases hes : e ∈ s.symlinks
      · exact Or.inl hes
      · by_cases hdel : deleteOn flags = true
        · exact absurd ⟨hdel, h1, hes⟩ h2
        · exact Or.inr ⟨bool_eq_false hdel, h1, h3⟩
    · exact Or.inl (mem_symlinksToCopy.mp h1).1
  · rintro (h1 | ⟨h1, h2, h3⟩)
    · by_cases hed : e ∈ d.symlinks
      · have hkey : e.1 ∉ keysOf (symlinksToCopy s d) := by
          intro hc
          rcases mem_keysOf.mp hc with ⟨t, ht⟩
          rcases mem_symlinksToCopy.mp ht with ⟨ht1, ht2⟩
          have : t = e.2 := key_unique hs3 ht1 (by
            rw [show (e.1, e.2) = e from rfl]
            exact h1)
          rw [this] at ht1 ht2
          exact ht2 (by
            rw [show (e.1, e.2) = e from rfl]
            exact hed)
        refine Or.inl ⟨⟨hed, ?_⟩, hkey⟩
        rintro ⟨-, -, hc⟩
        exact hc h1
      · exact Or.inr (mem_symlinksToCopy.mpr ⟨h1, hed⟩)
    · refine Or.inl ⟨⟨h2, ?_⟩, h3⟩
      rintro ⟨hc, -⟩
      rw [h1] at hc
      simp at hc

theorem syncTree_symlinks_super (s d : FileSets) (flags : Nat)
    (hs3 : (keysOf s.symlinks).Nodup) :
    ∀ e ∈ s.symlinks, e ∈ (syncTree allOk s d flags).symlinks := fun e he =>
  (syncTree_symlinks_mem_allOk s d flags hs3 e).mpr (Or.inl he)

theorem syncTree_symlinks_mem_del (s d : FileSets) (flags : Nat)
    (hs3 : (keysOf s.symlinks).Nodup) (hdel : deleteOn flags = true)
    (e : RelPath × String) :
    e ∈ (syncTree allOk s d flags).symlinks ↔ e ∈ s.symlinks := by
  rw [syncTree_symlinks_mem_allOk s d flags hs3 e]
  constructor
  · rintro (h | h)
    · exact h
    · rw [hdel] at h
      simp at h
  · exact Or.inl

theorem syncTree_symlinks_lookup_del (s d : FileSets) (flags : Nat)
    (hs3 : (keysOf s.symlinks).Nodup) (hdel : deleteOn flags = true)
    (p : RelPath) :
    lookupF (syncTree allOk s d flags).symlinks p = lookupF s.symlinks p := by
  cases hx : lookupF (syncTree allOk s d flags).symlinks p with
  | some t =>
      have hmem := mem_of_lookupF hx
      have hmem2 := (syncTree_symlinks_mem_del s d flags hs3 hdel (p, t)).mp hmem
      exact (lookupF_of_mem_nodup hs3 hmem2).symm
  | none =>
      cases hy : lookupF s.symlinks p with
      | none => rfl
      | some t =>
          have hmem := (syncTree_symlinks_mem_del s d flags hs3 hdel (p, t)).mpr
            (mem_of_lookupF hy)
          exact absurd (mem_keysOf.mpr ⟨t, hmem⟩) (lookupF_eq_none_iff.mp hx)

theorem deleteFilesOp_nil_del (ok : RelPath → Bool) (d : FileSets) :
    deleteFilesOp ok [] d = d := by
  unfold deleteFilesOp
  have h : List.filter (fun e => !(([] : List RelPath).contains e.1 && ok e.1)) d.files
      = d.files := List.filter_eq_self.mpr (fun a _ => rfl)
  rw [h]

theorem deleteSymlinksOp_nil_del (ok : RelPath → Bool) (d : FileSets) :
    deleteSymlinksOp ok [] d = d := by
  unfold deleteSymlinksOp
  have h : List.filter
      (fun e => !(([] : List (RelPath × String)).contains e && ok e.1)) d.symlinks
      = d.symlinks := List.filter_eq_self.mpr (fun a _ => rfl)
  rw [h]

theorem deleteDirsOp_nil_del (ok : RelPath → Bool) (d : FileSets) :
    deleteDirsOp ok [] d = d := by
  unfold deleteDirsOp
  have h : List.filter (fun p => !(([] : List RelPath).contains p && ok p)) d.dirs
      = d.dirs := List.filter_eq_self.mpr (fun a _ => rfl)
  rw [h]

theorem sortFiles_nil : sortFiles [] = [] := rfl

theorem sortFiles_perm (l : List RelPath) : (sortFiles l).Perm l :=
  List.perm_insertionSort dirLe l

theorem sortFiles_sorted (l : List RelPath) : List.Sorted dirLe (sortFiles l) :=
  List.sorted_insertionSort dirLe l

theorem pairwise_getElem_lt {α : Type} {R : α → α → Prop} {l : List α}
    (hp : List.Pairwise R l) {a b : α} (hne : a ≠ b) (hnr : ¬R a b)
    (i j : Nat) (hi : i < l.length) (hj : j < l.length)
    (hbi : l[i] = b) (haj : l[j] = a) : i < j := by
  rcases Nat.lt_trichotomy i j with h | h | h
  · exact h
  · subst h
    have hab : a = b := by
      rw [← haj, hbi]
    exact absurd hab hne
  · have hr := (List.pairwise_iff_getElem.mp hp) j i hj hi h
    rw [haj, hbi] at hr
    exact absurd hr hnr

theorem not_dirLe_of_nested {A B : RelPath} (hpre : A <+: B)
    (hne : A ≠ B) : ¬dirLe A B := by
  have hlen : A.length < B.length :=
    lt_of_le_of_ne hpre.length_le (fun h => hne (hpre.eq_of_length h))
  rintro (h | ⟨h, -⟩)
  · unfold pathDepth at h
    omega
  · unfold pathDepth at h
    omega

theorem sortFiles_descendant_first (l : List RelPath) {A B : RelPath}
    (hpre : A <+: B) (hne : A ≠ B) (i j : Nat)
    (hi : i < (sortFiles l).length) (hj : j < (sortFiles l).length)
    (hbi : (sortFiles l)[i] = B) (haj : (sortFiles l)[j] = A) : i < j :=
  pairwise_getElem_lt (sortFiles_sorted l) hne
    (not_dirLe_of_nested hpre hne) i j hi hj hbi haj

theorem syncTree_decomp (ok : RelPath → Bool) (s d : FileSets) (flags : Nat) :
    syncTree ok s d flags =
      if deleteOn flags = true then
        deleteDirsOp ok (sortFiles (dirsToDelete s d)) (stageCompare ok s d flags).1
      else (stageCompare ok s d flags).1 := rfl

theorem syncTree_fixpoint (s d : FileSets) (flags : Nat) (hs : s.Wf) :
    syncTree allOk s (syncTree allOk s d flags) flags = syncTree allOk s d flags
    ∧ filesToCopy s (syncTree allOk s d flags) = []
    ∧ (stageCompare allOk s (syncTree allOk s d flags) flags).2 = [] := by
  obtain ⟨hs1, hs2, hs3⟩ := hs
  have F1 : ∀ p ∈ keysOf s.files,
      lookupF (syncTree allOk s d flags).files p = lookupF s.files p := by
    intro p hp
    rw [syncTree_files_allOk s d flags hs1 p, if_pos hp]
  have F2 : deleteOn flags = true → ∀ p ∈ keysOf (syncTree allOk s d flags).files,
      p ∈ keysOf s.files := by
    intro hdel p hp
    by_contra hc
    have hx := lookupF_isSome_iff.mpr hp
    rw [syncTree_files_allOk s d flags hs1 p, if_neg hc, if_pos hdel] at hx
    simp at hx
  have F3 : ∀ p ∈ s.dirs, p ∈ (syncTree allOk s d flags).dirs := fun p hp =>
    (syncTree_dirs_allOk s d flags p).mpr (Or.inl hp)
  have F4 : deleteOn flags = true → ∀ p ∈ (syncTree allOk s d flags).dirs,
      p ∈ s.dirs := by
    intro hdel p hp
    rcases (syncTree_dirs_allOk s d flags p).mp hp with h | h
    · exact h
    · rw [hdel] at h
      simp at h
  have F5 := syncTree_symlinks_super s d flags hs3
  have F6 : deleteOn flags = true → ∀ e ∈ (syncTree allOk s d flags).symlinks,
      e ∈ s.symlinks := fun hdel e he =>
    (syncTree_symlinks_mem_del s d flags hs3 hdel e).mp he
  have F7 : ∀ p ∈ keysOf s.files, p ∈ keysOf (syncTree allOk s d flags).files := by
    intro p hp
    rw [← lookupF_isSome_iff, F1 p hp, lookupF_isSome_iff]
    exact hp
  have G3 : dirsToCopy s (syncTree allOk s d flags) = [] := by
    apply List.filter_eq_nil_iff.mpr
    intro a ha
    simp
    exact F3 a ha
  have G4 : symlinksToCopy s (syncTree allOk s d flags) = [] := by
    apply List.filter_eq_nil_iff.mpr
    intro a ha
    simp
    exact F5 a ha
  have G5 : filesToCopy s (syncTree allOk s d flags) = [] := by
    apply List.filter_eq_nil_iff.mpr
    intro a ha
    simp
    exact F7 a ha
  have H1 : stageDelSym allOk s (syncTree allOk s d flags) flags =
      syncTree allOk s d flags := by
    unfold stageDelSym
    by_cases hdel : deleteOn flags = true
    · have G1 : symlinksToDelete s (syncTree allOk s d flags) = [] := by
        apply List.filter_eq_nil_iff.mpr
        intro a ha
        simp
        exact F6 hdel a ha
      rw [if_pos hdel, G1, deleteSymlinksOp_nil_del]
    · rw [if_neg hdel]
  have H2 : stageDelFiles allOk s (syncTree allOk s d flags) flags =
      syncTree allOk s d flags := by
    unfold stageDelFiles
    by_cases hdel : deleteOn flags = true
    · have G2 : filesToDelete s (syncTree allOk s d flags) = [] := by
        apply List.filter_eq_nil_iff.mpr
        intro a ha
        simp
        exact F2 hdel a ha
      rw [if_pos hdel, G2, H1, deleteFilesOp_nil_del]
    · rw [if_neg hdel]
      exact H1
  have H3 : stageCopyDirs allOk s (syncTree allOk s d flags) flags =
      syncTree allOk s d flags := by
    show copyDirsOp allOk (dirsToCopy s (syncTree allOk s d flags))
      (stageDelFiles allOk s (syncTree allOk s d flags) flags) = _
    rw [G3, copyDirsOp_nil, H2]
  have H4 : stageCopySym allOk s (syncTree allOk s d flags) flags =
      syncTree allOk s d flags := by
    show copySymlinksOp allOk (symlinksToCopy s (syncTree allOk s d flags))
      (stageCopyDirs allOk s (syncTree allOk s d flags) flags) = _
    rw [G4, copySymlinksOp_nil, H3]
  have H5 : stageCopyFiles allOk s (syncTree allOk s d flags) flags =
      syncTree allOk s d flags := by
    show copyFilesOp allOk (filesToCopy s (syncTree allOk s d flags)) s
      (stageCopySym allOk s (syncTree allOk s d flags) flags) = _
    rw [G5, copyFilesOp_nil, H4]
  have HC : stageCompare allOk s (syncTree allOk s d flags) flags =
      (syncTree allOk s d flags, []) := by
    show compareAndCopyOp allOk (filesToCompare s (syncTree allOk s d flags)) s
      (stageCopyFiles allOk s (syncTree allOk s d flags) flags) = _
    rw [H5]
    apply compareAndCopyOp_self
    intro p hp _
    exact F1 p (mem_filesToCompare.mp hp).1
  refine ⟨?_, G5, by rw [HC]⟩
  rw [syncTree_decomp allOk s (syncTree allOk s d flags) flags]
  by_cases hdel : deleteOn flags = true
  · have G6 : dirsToDelete s (syncTree allOk s d flags) = [] := by
      apply List.filter_eq_nil_iff.mpr
      intro a ha
      simp
      exact F4 hdel a ha
    rw [if_pos hdel, G6, sortFiles_nil, deleteDirsOp_nil_del, HC]
  · rw [if_neg hdel, HC]

theorem copyTree_files_lookup (ok : RelPath → Bool) (s d : FileSets)
    (p : RelPath) (hp : p ∉ keysOf s.files) :
    lookupF (copyTree ok s d).files p = lookupF d.files p := by
  unfold copyTree
  rw [copySymlinksOp_files, lookupF_copyFilesOp, if_neg (fun hc => hp hc.1),
      copyDirsOp_files]

theorem copyTree_dirs_mono (ok : RelPath → Bool) (s d : FileSets) (p : RelPath)
    (hp : p ∈ d.dirs) : p ∈ (copyTree ok s d).dirs := by
  unfold copyTree
  rw [copySymlinksOp_dirs, copyFilesOp_dirs, mem_copyDirsOp]
  exact Or.inl hp

theorem copyTree_symlinks_lookup (ok : RelPath → Bool) (s d : FileSets)
    (p : RelPath) (hp : p ∉ keysOf s.symlinks) :
    lookupF (copyTree ok s d).symlinks p = lookupF d.symlinks p := by
  unfold copyTree
  rw [lookupF_copySymlinksOp_not_mem ok s.symlinks p hp, copyFilesOp_symlinks,
      copyDirsOp_symlinks]

/-- A small concrete source tree used to witness the claim theorems
(the scenario of spec section 8). -/
def sampleSrc : FileSets :=
  ⟨[(["a", "f.txt"], [120])], [["a"]], [(["b.lnk"], "/etc/hosts")]⟩

/-- A small concrete destination tree used to witness the claim theorems. -/
def sampleDest : FileSets :=
  ⟨[(["a", "f.txt"], [121]), (["c.txt"], [122])],
   [["a"], ["old"], ["old", "sub"]], [(["b.lnk"], "/etc/motd")]⟩

theorem noDelete_unset_zero : contains_flag 0 Flag.NoDelete = false := by
  simp [contains_flag, Flag.toU32, Nat.log2]

theorem noDelete_set_two : contains_flag 2 Flag.NoDelete = true := by
  simp [contains_flag, Flag.toU32, Nat.log2]

theorem deleteOn_zero : deleteOn 0 = true := by
  unfold deleteOn
  rw [noDelete_unset_zero]
  rfl

/-- C9: `parse.rs::contains_flag`, which shifts the bitfield right by the
truncated base-2 logarithm of the flag value (computed through an `f32`
round-trip that is exact on the four power-of-two flag values) and masks the
low bit, agrees with the plain bit test `bitfield & (flag as u32) != 0` for
every `u32` bitfield and each of the four flags; hence each flag's result
depends only on its own bit and the four options are independent. -/
theorem c9_contains_flag_bittest (bitfield : Nat) (hb : bitfield < 2 ^ 32)
    (flag : Flag) :
    (contains_flag bitfield flag = true) ↔ bitfield &&& flag.toU32 ≠ 0 := by
  have key : ∀ k : Nat,
      ((((bitfield >>> k) &&& 1) == 1) = true) ↔ bitfield &&& 2 ^ k ≠ 0 := by
    intro k
    rw [Nat.and_one_is_mod, Nat.shiftRight_eq_div_pow, Nat.and_two_pow, beq_iff_eq]
    constructor
    · intro h
      have ht : bitfield.testBit k = true := by
        rw [Nat.testBit_to_div_mod]
        exact decide_eq_true h
      rw [ht]
      simp
    · intro h
      by_contra hc
      have ht : bitfield.testBit k = false := by
        rw [Nat.testBit_to_div_mod]
        exact decide_eq_false hc
      rw [ht] at h
      simp at h
  cases flag
  case Copy =>
    unfold contains_flag
    rw [show Nat.log2 Flag.Copy.toU32 = 0 from by simp [Flag.toU32, Nat.log2],
        show Flag.Copy.toU32 = 1 from rfl]
    have hk := key 0
    rw [pow_zero] at hk
    exact hk
  case NoDelete =>
    unfold contains_flag
    rw [show Nat.log2 Flag.NoDelete.toU32 = 1 from by simp [Flag.toU32, Nat.log2],
        show Flag.NoDelete.toU32 = 2 from rfl]
    have hk := key 1
    rw [pow_one] at hk
    exact hk
  case Secure =>
    unfold contains_flag
    rw [show Nat.log2 Flag.Secure.toU32 = 2 from by simp [Flag.toU32, Nat.log2],
        show Flag.Secure.toU32 = 4 from rfl]
    have hk := key 2
    rw [show (2 : Nat) ^ 2 = 4 from by norm_num] at hk
    exact hk
  case Verbose =>
    unfold contains_flag
    rw [show Nat.log2 Flag.Verbose.toU32 = 3 from by simp [Flag.toU32, Nat.log2],
        show Flag.Verbose.toU32 = 8 from rfl]
    have hk := key 3
    rw [show (2 : Nat) ^ 3 = 8 from by norm_num] at hk
    exact hk

/-- Witness for C9 at the concrete bitfield 6 and flag `NoDelete`. -/
theorem c9_contains_flag_bittest_witness :
    (6 : Nat) < 2 ^ 32 ∧
      ((contains_flag 6 Flag.NoDelete = true) ↔ 6 &&& Flag.NoDelete.toU32 ≠ 0) :=
  ⟨by norm_num, c9_contains_flag_bittest 6 (by norm_num) Flag.NoDelete⟩

/-- C1: Mirroring — when deletion is enabled (`NoDelete` unset) and the two
scans satisfy the scan invariant, a successful ideal `synchronize` run leaves
the destination with exactly the source's paths: each path carries the same
file content, the same directory presence, and the same symlink target as in
the source, and paths absent from the source are absent from the
destination. -/
theorem c1_mirroring (s d : FileSets) (flags : Nat) (hs : s.Wf)
    (hdel : contains_flag flags Flag.NoDelete = false) :
    (synchronize allOk (.ok s) (.ok d) flags).1 = Except.ok (syncTree allOk s d flags)
    ∧ ∀ p : RelPath,
        lookupF (syncTree allOk s d flags).files p = lookupF s.files p
        ∧ (p ∈ (syncTree allOk s d flags).dirs ↔ p ∈ s.dirs)
        ∧ lookupF (syncTree allOk s d flags).symlinks p = lookupF s.symlinks p := by
  have hdel' : deleteOn flags = true := by
    unfold deleteOn
    rw [hdel]
    rfl
  refine ⟨rfl, fun p => ⟨?_, ?_, ?_⟩⟩
  · rw [syncTree_files_allOk s d flags hs.1 p]
    by_cases hp : p ∈ keysOf s.files
    · rw [if_pos hp]
    · rw [if_neg hp, if_pos hdel']
      exact (lookupF_eq_none_iff.mpr hp).symm
  · rw [syncTree_dirs_allOk]
    constructor
    · rintro (h | h)
      · exact h
      · rw [hdel'] at h
        simp at h
    · exact Or.inl
  · exact syncTree_symlinks_lookup_del s d flags hs.2.2 hdel' p

/-- Witness for C1: after the ideal run on the sample trees with deletion
enabled, the extra file `c.txt` of the destination mirrors the source (it is
gone). -/
theorem c1_mirroring_witness :
    sampleSrc.Wf ∧
      lookupF (syncTree allOk sampleSrc sampleDest 0).files [("c.txt" : String)] =
        lookupF sampleSrc.files ["c.txt"] :=
  ⟨by decide,
   ((c1_mirroring sampleSrc sampleDest 0 (by decide) noDelete_unset_zero).2 ["c.txt"]).1⟩

/-- C3: Fail-fast atomicity of scan errors — if either root scan fails, the
call returns that error and the performed actions contain no mutation at all
(when the source scan fails the destination is not even scanned). -/
theorem c3_scan_failfast (ok : RelPath → Bool)
    (srcScan destScan : Except IOError FileSets) (flags : Nat) (e : IOError)
    (h : srcScan = Except.error e ∨
      ((∃ s, srcScan = Except.ok s) ∧ destScan = Except.error e)) :
    (synchronize ok srcScan destScan flags).1 = Except.error e
    ∧ ∀ a ∈ (synchronize ok srcScan destScan flags).2, a.isMutating = false := by
  rcases h with h | ⟨⟨s, hsrc⟩, hdst⟩
  · subst h
    refine ⟨rfl, ?_⟩
    intro a ha
    have ha' : a ∈ [Action.scanSrc] := ha
    rw [List.mem_singleton.mp ha']
    rfl
  · subst hsrc
    subst hdst
    refine ⟨rfl, ?_⟩
    intro a ha
    have ha' : a ∈ [Action.scanSrc, Action.scanDest] := ha
    rcases List.mem_cons.mp ha' with h1 | h1
    · rw [h1]
      rfl
    · rw [List.mem_singleton.mp h1]
      rfl

/-- Witness for C3 at a concrete failing source scan. -/
theorem c3_scan_failfast_witness :
    (synchronize allOk (Except.error "src gone") (Except.ok sampleDest) 0).1 =
      Except.error "src gone" :=
  (c3_scan_failfast allOk (Except.error "src gone") (Except.ok sampleDest) 0
    "src gone" (Or.inl rfl)).1

/-- C4: the top-level result reflects only scan success — whenever both scans
succeed, `synchronize` returns `Ok` for every per-entry failure oracle `ok`,
every pair of trees and every flag word; per-entry failures have no channel
into the returned result. -/
theorem c4_result_scan_only (ok : RelPath → Bool) (s d : FileSets) (flags : Nat) :
    (synchronize ok (.ok s) (.ok d) flags).1 = Except.ok (syncTree ok s d flags)
    ∧ ∃ t : FileSets, (synchronize ok (.ok s) (.ok d) flags).1 = Except.ok t :=
  ⟨rfl, syncTree ok s d flags, rfl⟩

/-- C5: `NoDelete` preserves extras — with the flag set, no deletion action of
any kind is performed, and every destination entry whose path is absent from
the source (per kind) is unchanged afterwards, for every per-entry failure
oracle. -/
theorem c5_nodelete_preserves (ok : RelPath → Bool) (s d : FileSets)
    (flags : Nat) (hnd : contains_flag flags Flag.NoDelete = true) :
    (∀ a ∈ (synchronize ok (.ok s) (.ok d) flags).2, a.isDeletion = false)
    ∧ (∀ p : RelPath, p ∉ keysOf s.files →
        lookupF (syncTree ok s d flags).files p = lookupF d.files p)
    ∧ (∀ p ∈ d.dirs, p ∈ (syncTree ok s d flags).dirs)
    ∧ (∀ p : RelPath, p ∉ keysOf s.symlinks →
        lookupF (syncTree ok s d flags).symlinks p = lookupF d.symlinks p) := by
  have hdel : deleteOn flags = false := by
    unfold deleteOn
    rw [hnd]
    rfl
  have hdel' : ¬(deleteOn flags = true) := by
    rw [hdel]
    simp
  refine ⟨?_, ?_, ?_, ?_⟩
  · intro a ha
    have ha' : a ∈ Action.scanSrc :: Action.scanDest :: syncTrace ok s d flags := ha
    rcases List.mem_cons.mp ha' with h1 | h1
    · rw [h1]
      rfl
    rcases List.mem_cons.mp h1 with h2 | h2
    · rw [h2]
      rfl
    unfold syncTrace at h2
    rw [if_neg hdel', if_neg hdel'] at h2
    simp only [List.nil_append, List.append_nil, List.mem_cons,
      List.not_mem_nil, or_false] at h2
    rcases h2 with h | h | h | h <;> rw [h] <;> rfl
  · intro p hp
    have h1 : p ∉ filesToCompare s d := fun hc => hp (mem_filesToCompare.mp hc).1
    rw [syncTree_files_lookup_aux,
        show stageCompare ok s d flags =
          compareAndCopyOp ok (filesToCompare s d) s (stageCopyFiles ok s d flags)
        from rfl,
        lookupF_compareAndCopyOp_not_mem ok (filesToCompare s d) s p h1,
        show stageCopyFiles ok s d flags =
          copyFilesOp ok (filesToCopy s d) s (stageCopySym ok s d flags)
        from rfl,
        lookupF_copyFilesOp,
        if_neg (fun hc => hp (mem_filesToCopy.mp hc.1).1)]
    have hf : (stageCopySym ok s d flags).files = d.files := by
      rw [show stageCopySym ok s d flags =
            copySymlinksOp ok (symlinksToCopy s d) (stageCopyDirs ok s d flags)
          from rfl,
          copySymlinksOp_files,
          show stageCopyDirs ok s d flags =
            copyDirsOp ok (dirsToCopy s d) (stageDelFiles ok s d flags)
          from rfl,
          copyDirsOp_files]
      unfold stageDelFiles
      rw [if_neg hdel', stageDelSym_files]
    rw [hf]
  · intro p hp
    have hmem : p ∈ (stageCopyDirs ok s d flags).dirs := by
      rw [show stageCopyDirs ok s d flags =
            copyDirsOp ok (dirsToCopy s d) (stageDelFiles ok s d flags)
          from rfl,
          mem_copyDirsOp, stageDelFiles_dirs]
      exact Or.inl hp
    unfold syncTree
    rw [if_neg hdel', stageCompare_fst_dirs]
    exact hmem
  · intro p hp
    have hkey : p ∉ keysOf (symlinksToCopy s d) := fun hc =>
      hp (keysOf_filter_subset hc)
    rw [syncTree_symlinks_eq,
        show stageCopySym ok s d flags =
          copySymlinksOp ok (symlinksToCopy s d) (stageCopyDirs ok s d flags)
        from rfl,
        lookupF_copySymlinksOp_not_mem ok (symlinksToCopy s d) p hkey,
        stageCopyDirs_symlinks]
    unfold stageDelSym
    rw [if_neg hdel']

/-- Witness for C5: with `NoDelete` set (flags = 2) the destination-only
directory `old` survives the run. -/
theorem c5_nodelete_preserves_witness :
    contains_flag 2 Flag.NoDelete = true ∧
      [("old" : String)] ∈ (syncTree allOk sampleSrc sampleDest 2).dirs :=
  ⟨noDelete_set_two,
   (c5_nodelete_preserves allOk sampleSrc sampleDest 2 noDelete_set_two).2.2.1
     ["old"] (by decide)⟩

/-- C2: Phase ordering — a `synchronize` run whose scans succeed performs, in
this fixed order: (unless `NoDelete`) symlink deletion then file deletion,
then directory copy, then symlink copy, then file copy and
compare-and-conditionally-copy, and (unless `NoDelete`) directory deletion
last.  Consequently every file/symlink deletion precedes every directory
deletion, and directory creation precedes every file copy. -/
theorem c2_phase_order (ok : RelPath → Bool) (s d : FileSets) (flags : Nat) :
    (synchronize ok (.ok s) (.ok d) flags).2 =
      [Action.scanSrc, Action.scanDest]
      ++ (if deleteOn flags = true then
            [Action.deleteSymlinks (symlinksToDelete s d),
             Action.deleteFiles (filesToDelete s d)]
          else [])
      ++ [Action.copyDirs (dirsToCopy s d),
          Action.copySymlinks (symlinksToCopy s d),
          Action.copyFiles (filesToCopy s d),
          Action.compareFiles (filesToCompare s d) (stageCompare ok s d flags).2]
      ++ (if deleteOn flags = true then
            [Action.deleteDirs (sortFiles (dirsToDelete s d))]
          else [])
    ∧ (∀ (i j : Nat) (a b : Action),
        (synchronize ok (.ok s) (.ok d) flags).2[i]? = some a →
        (synchronize ok (.ok s) (.ok d) flags).2[j]? = some b →
        a.isEntryDeletion = true → b.isDirDeletion = true → i < j)
    ∧ (∀ (i j : Nat) (a b : Action),
        (synchronize ok (.ok s) (.ok d) flags).2[i]? = some a →
        (synchronize ok (.ok s) (.ok d) flags).2[j]? = some b →
        a.isDirCreation = true → b.isFileCopy = true → i < j) := by
  by_cases hdel : deleteOn flags = true
  · have hexp : (synchronize ok (.ok s) (.ok d) flags).2 =
        [Action.scanSrc, Action.scanDest,
         Action.deleteSymlinks (symlinksToDelete s d),
         Action.deleteFiles (filesToDelete s d),
         Action.copyDirs (dirsToCopy s d),
         Action.copySymlinks (symlinksToCopy s d),
         Action.copyFiles (filesToCopy s d),
         Action.compareFiles (filesToCompare s d) (stageCompare ok s d flags).2,
         Action.deleteDirs (sortFiles (dirsToDelete s d))] := by
      show Action.scanSrc :: Action.scanDest :: syncTrace ok s d flags = _
      unfold syncTrace
      rw [if_pos hdel, if_pos hdel]
      rfl
    refine ⟨by rw [hexp, if_pos hdel, if_pos hdel]; rfl, ?_, ?_⟩
    · intro i j a b h1 h2 ha hb
      rw [hexp] at h1 h2
      have hi : i < 9 := by
        by_contra hc
        rw [List.getElem?_eq_none (by simp; omega)] at h1
        exact Option.noConfusion h1
      have hj : j < 9 := by
        by_contra hc
        rw [List.getElem?_eq_none (by simp; omega)] at h2
        exact Option.noConfusion h2
      interval_cases i <;> interval_cases j <;>
        (simp only [List.getElem?_cons_zero, List.getElem?_cons_succ,
          Option.some.injEq] at h1 h2) <;>
        subst h1 <;> subst h2 <;>
        simp_all [Action.isEntryDeletion, Action.isDirDeletion]
    · intro i j a b h1 h2 ha hb
      rw [hexp] at h1 h2
      have hi : i < 9 := by
        by_contra hc
        rw [List.getElem?_eq_none (by simp; omega)] at h1
        exact Option.noConfusion h1
      have hj : j < 9 := by
        by_contra hc
        rw [List.getElem?_eq_none (by simp; omega)] at h2
        exact Option.noConfusion h2
      interval_cases i <;> interval_cases j <;>
        (simp only [List.getElem?_cons_zero, List.getElem?_cons_succ,
          Option.some.injEq] at h1 h2) <;>
        subst h1 <;> subst h2 <;>
        simp_all [Action.isDirCreation, Action.isFileCopy]
  · have hexp : (synchronize ok (.ok s) (.ok d) flags).2 =
        [Action.scanSrc, Action.scanDest,
         Action.copyDirs (dirsToCopy s d),
         Action.copySymlinks (symlinksToCopy s d),
         Action.copyFiles (filesToCopy s d),
         Action.compareFiles (filesToCompare s d) (stageCompare ok s d flags).2] := by
      show Action.scanSrc :: Action.scanDest :: syncTrace ok s d flags = _
      unfold syncTrace
      rw [if_neg hdel, if_neg hdel]
      rfl
    refine ⟨by rw [hexp, if_neg hdel, if_neg hdel]; rfl, ?_, ?_⟩
    · intro i j a b h1 h2 ha hb
      rw [hexp] at h1 h2
      have hi : i < 6 := by
        by_contra hc
        rw [List.getElem?_eq_none (by simp; omega)] at h1
        exact Option.noConfusion h1
      have hj : j < 6 := by
        by_contra hc
        rw [List.getElem?_eq_none (by simp; omega)] at h2
        exact Option.noConfusion h2
      interval_cases i <;> interval_cases j <;>
        (simp only [List.getElem?_cons_zero, List.getElem?_cons_succ,
          Option.some.injEq] at h1 h2) <;>
        subst h1 <;> subst h2 <;>
        simp_all [Action.isEntryDeletion, Action.isDirDeletion]
    · intro i j a b h1 h2 ha hb
      rw [hexp] at h1 h2
      have hi : i < 6 := by
        by_contra hc
        rw [List.getElem?_eq_none (by simp; omega)] at h1
        exact Option.noConfusion h1
      have hj : j < 6 := by
        by_contra hc
        rw [List.getElem?_eq_none (by simp; omega)] at h2
        exact Option.noConfusion h2
      interval_cases i <;> interval_cases j <;>
        (simp only [List.getElem?_cons_zero, List.getElem?_cons_succ,
          Option.some.injEq] at h1 h2) <;>
        subst h1 <;> subst h2 <;>
        simp_all [Action.isDirCreation, Action.isFileCopy]

/-- Witness for C2: on the sample trees with deletion enabled, the symlink
deletion at position 2 of the trace precedes the directory deletion at
position 8. -/
theorem c2_phase_order_witness : deleteOn 0 = true ∧ (2 : Nat) < 8 := by
  refine ⟨deleteOn_zero, ?_⟩
  have hexp : (synchronize allOk (Except.ok sampleSrc) (Except.ok sampleDest) 0).2 =
      [Action.scanSrc, Action.scanDest,
       Action.deleteSymlinks (symlinksToDelete sampleSrc sampleDest),
       Action.deleteFiles (filesToDelete sampleSrc sampleDest),
       Action.copyDirs (dirsToCopy sampleSrc sampleDest),
       Action.copySymlinks (symlinksToCopy sampleSrc sampleDest),
       Action.copyFiles (filesToCopy sampleSrc sampleDest),
       Action.compareFiles (filesToCompare sampleSrc sampleDest)
         (stageCompare allOk sampleSrc sampleDest 0).2,
       Action.deleteDirs (sortFiles (dirsToDelete sampleSrc sampleDest))] := by
    show Action.scanSrc :: Action.scanDest :: syncTrace allOk sampleSrc sampleDest 0 = _
    unfold syncTrace
    rw [if_pos deleteOn_zero, if_pos deleteOn_zero]
    rfl
  exact (c2_phase_order allOk sampleSrc sampleDest 0).2.1 2 8
    (Action.deleteSymlinks (symlinksToDelete sampleSrc sampleDest))
    (Action.deleteDirs (sortFiles (dirsToDelete sampleSrc sampleDest)))
    (by rw [hexp]; rfl) (by rw [hexp]; rfl) rfl rfl

/-- C6: Directory deletion order safety — with deletion enabled, the final
phase hands the deleter the directories to delete sorted deepest first with
reverse-lexicographic tie-break (the sequential `delete_files_sequential`
action of the trace), the sorted list is a permutation of
`dest dirs - src dirs`, and every directory scheduled for deletion occurs in
it strictly before each of its ancestors, so a directory is removed only
after all scheduled directories inside it. -/
theorem c6_dir_delete_order (ok : RelPath → Bool) (s d : FileSets) (flags : Nat)
    (hdel : contains_flag flags Flag.NoDelete = false) :
    Action.deleteDirs (sortFiles (dirsToDelete s d)) ∈
      (synchronize ok (.ok s) (.ok d) flags).2
    ∧ (sortFiles (dirsToDelete s d)).Perm (dirsToDelete s d)
    ∧ List.Sorted dirLe (sortFiles (dirsToDelete s d))
    ∧ ∀ (A B : RelPath), A <+: B → A ≠ B →
        ∀ (i j : Nat) (hi : i < (sortFiles (dirsToDelete s d)).length)
            (hj : j < (sortFiles (dirsToDelete s d)).length),
          (sortFiles (dirsToDelete s d))[i] = B →
          (sortFiles (dirsToDelete s d))[j] = A → i < j := by
  have hdel' : deleteOn flags = true := by
    unfold deleteOn
    rw [hdel]
    rfl
  refine ⟨?_, sortFiles_perm _, sortFiles_sorted _, ?_⟩
  · show Action.deleteDirs _ ∈
      Action.scanSrc :: Action.scanDest :: syncTrace ok s d flags
    unfold syncTrace
    rw [if_pos hdel', if_pos hdel']
    simp
  · intro A B hpre hne i j hi hj hbi haj
    exact sortFiles_descendant_first (dirsToDelete s d) hpre hne i j hi hj hbi haj

/-- Witness for C6: on the sample trees, `old/sub` is scheduled strictly
before its ancestor `old`. -/
theorem c6_dir_delete_order_witness :
    contains_flag 0 Flag.NoDelete = false ∧ (0 : Nat) < 1 :=
  ⟨noDelete_unset_zero,
   (c6_dir_delete_order allOk sampleSrc sampleDest 0 noDelete_unset_zero).2.2.2
     ["old"] ["old", "sub"] (by decide) (by decide) 0 1 (by decide) (by decide)
     (by decide) (by decide)⟩

/-- C7: Copy mode is additive-only — `copy`'s action list contains no deletion
and no comparison, and every pre-existing destination entry whose path is
absent from the source (per kind) is unchanged afterwards, for every per-entry
failure oracle. -/
theorem c7_copy_additive (ok : RelPath → Bool) (s d : FileSets) :
    (copyRun ok (.ok s) (.ok d)).1 = Except.ok (copyTree ok s d)
    ∧ (∀ a ∈ (copyRun ok (.ok s) (.ok d)).2,
        a.isDeletion = false ∧ a.isCompare = false)
    ∧ (∀ p : RelPath, p ∉ keysOf s.files →
        lookupF (copyTree ok s d).files p = lookupF d.files p)
    ∧ (∀ p ∈ d.dirs, p ∈ (copyTree ok s d).dirs)
    ∧ (∀ p : RelPath, p ∉ keysOf s.symlinks →
        lookupF (copyTree ok s d).symlinks p = lookupF d.symlinks p) := by
  refine ⟨rfl, ?_, ?_, ?_, ?_⟩
  · intro a ha
    have ha' : a ∈ [Action.scanSrc, Action.copyDirs s.dirs,
        Action.copyFiles (keysOf s.files), Action.copySymlinks s.symlinks] := ha
    simp only [List.mem_cons, List.not_mem_nil, or_false] at ha'
    rcases ha' with h | h | h | h <;> rw [h] <;> exact ⟨rfl, rfl⟩
  · exact copyTree_files_lookup ok s d
  · exact copyTree_dirs_mono ok s d
  · exact copyTree_symlinks_lookup ok s d

/-- Witness for C7: the destination-only file `c.txt` is unchanged by copy
mode on the sample trees. -/
theorem c7_copy_additive_witness :
    [("c.txt" : String)] ∉ keysOf sampleSrc.files ∧
      lookupF (copyTree allOk sampleSrc sampleDest).files ["c.txt"] =
        lookupF sampleDest.files ["c.txt"] :=
  ⟨by decide,
   (c7_copy_additive allOk sampleSrc sampleDest).2.2.1 ["c.txt"] (by decide)⟩

/-- C8: Idempotence — running the ideal `synchronize` a second time on the
destination produced by a first successful run (no external changes in
between) returns `Ok` of that same destination tree unchanged, and the second
run performs zero regular-file copies: every copy set is empty and the
comparator finds no differing file. -/
theorem c8_idempotent (s d : FileSets) (flags : Nat) (hs : s.Wf) :
    (synchronize allOk (.ok s) (.ok (syncTree allOk s d flags)) flags).1 =
      Except.ok (syncTree allOk s d flags)
    ∧ traceFileCopies
        (synchronize allOk (.ok s) (.ok (syncTree allOk s d flags)) flags).2 = 0 := by
  obtain ⟨hfix, hcopy, hcomp⟩ := syncTree_fixpoint s d flags hs
  constructor
  · show Except.ok (syncTree allOk s (syncTree allOk s d flags) flags) =
      Except.ok (syncTree allOk s d flags)
    rw [hfix]
  · show traceFileCopies (Action.scanSrc :: Action.scanDest ::
        syncTrace allOk s (syncTree allOk s d flags) flags) = 0
    unfold syncTrace
    rw [hcopy, hcomp]
    by_cases hdel : deleteOn flags = true
    · rw [if_pos hdel, if_pos hdel]
      simp [traceFileCopies, Action.fileCopyCount]
    · rw [if_neg hdel, if_neg hdel]
      simp [traceFileCopies, Action.fileCopyCount]

/-- Witness for C8 on the sample trees with deletion enabled. -/
theorem c8_idempotent_witness :
    sampleSrc.Wf ∧
      traceFileCopies
        (synchronize allOk (.ok sampleSrc)
          (.ok (syncTree allOk sampleSrc sampleDest 0)) 0).2 = 0 :=
  ⟨by decide, (c8_idempotent sampleSrc sampleDest 0 (by decide)).2⟩

/-- C10: `copy` returns an error exactly when the source scan fails; the
destination scan outcome is never consulted — the run returns `Ok` whenever
the source scan succeeds, even if the destination is missing or invalid, and
the destination is never scanned. -/
theorem c10_copy_err_iff_src (ok : RelPath → Bool) :
    (∀ (e : IOError) (destScan : Except IOError FileSets),
        copyRun ok (.error e) destScan = (Except.error e, [Action.scanSrc]))
    ∧ (∀ (s : FileSets) (destScan : Except IOError FileSets),
        (copyRun ok (.ok s) destScan).1 =
          Except.ok (copyTree ok s (destTreeOf destScan)))
    ∧ (∀ (srcScan destScan : Except IOError FileSets),
        Action.scanDest ∉ (copyRun ok srcScan destScan).2) := by
  refine ⟨fun e destScan => rfl, fun s destScan => rfl, ?_⟩
  intro srcScan destScan hmem
  cases srcScan with
  | error e =>
      have h : Action.scanDest ∈ [Action.scanSrc] := hmem
      simp at h
  | ok s =>
      have h : Action.scanDest ∈ [Action.scanSrc, Action.copyDirs s.dirs,
          Action.copyFiles (keysOf s.files), Action.copySymlinks s.symlinks] := hmem
      simp at h

/-- Witness for C10: copy with an invalid destination scan still succeeds, and
the destination is never scanned. -/
theorem c10_copy_err_iff_src_witness :
    (copyRun allOk (.ok sampleSrc) (Except.error "dest missing")).1 =
      Except.ok (copyTree allOk sampleSrc (destTreeOf (Except.error "dest missing")))
    ∧ Action.scanDest ∉
        (copyRun allOk (.ok sampleSrc) (Except.error "dest missing")).2 :=
  ⟨(c10_copy_err_iff_src allOk).2.1 sampleSrc (Except.error "dest missing"),
   (c10_copy_err_iff_src allOk).2.2 (.ok sampleSrc) (Except.error "dest missing")⟩
end Lumins
